import Mathlib

/-!
Verification development for the two hash-table engines of the
Fantasy-Football-League repository:

* `HashyStepTable` (src/hashy_step_table.py): a dynamically growing table
  with double-hash probing, lazy (tombstone) deletion and a growth ladder
  of table sizes, rehashing when the load factor exceeds 2/3.
* `HashyPerfectionTable` (src/hashy_perfection_table.py): a fixed-capacity
  table with a "perfect" hash for a closed key universe.

The embedding is shallow: Python strings are Lean `String`s (`ord` is
`Char.toNat`), the backing `ArrayR` is a `List` of three-state slots,
Python's arbitrary-precision `int` counters are `Int`, and every fallible
operation returns a result that, like a Python object after an exception,
still carries the (possibly mutated) table state.

Notes on fidelity:
* Python's load-factor test `len(self) > self.table_size * 2 / 3` uses
  float division; for the table sizes involved (far below 2^50) the float
  comparison agrees exactly with the rational one, embedded here as the
  integer comparison `3 * count > 2 * table_size`.
* Python raises `ZeroDivisionError` for `% 0` (table size 1 in `hash`,
  table size 0 elsewhere); such capacities never occur (the growth ladder
  consists of primes, so every capacity is at least 2) and all theorems
  below carry the corresponding hypotheses.
* The unbounded `while` loop of `_hashy_probe` is embedded with fuel equal
  to the table size; `ProbeResult.outOfFuel` marks fuel exhaustion and is
  proved unreachable (claim C7).
-/

deriving instance DecidableEq for Except

namespace FFL

/-- One slot of a backing array: never used, lazily deleted (the
`self.sentinel` object of the Python source), or a stored key/value pair. -/
inductive Slot (V : Type) where
  | empty : Slot V
  | tombstone : Slot V
  | occupied (key : String) (val : V) : Slot V
deriving DecidableEq

/-- Errors surfaced by the table operations. `keyError` is Python's
`KeyError` (the spec's KeyNotFound / InvalidKey is separate for the fixed
table), `fullError` is the `FullError` of the source (the spec's
TableFull), `typeError` models Python's `TypeError` when the tombstone
sentinel is subscripted, and `outOfFuel` is the (unreachable) fuel marker
for the probe loop. -/
inductive TErr where
  | keyError : TErr
  | fullError : TErr
  | typeError : TErr
  | outOfFuel : TErr
deriving DecidableEq

/-- State of a `HashyStepTable`: the growth ladder (`TABLE_SIZES`), the
current position in it (`size_index`), the backing array and the live-entry
count (a Python `int`, hence `Int`). -/
structure StepTable (V : Type) where
  sizes : List Nat
  sizeIndex : Nat
  array : List (Slot V)
  count : Int
deriving DecidableEq

/-- Python's `slot is None` test (no value equality involved). -/
def Slot.isNone : Slot V → Bool
  | .empty => true
  | _ => false

/-- Default growth ladder `TABLE_SIZES` of the source. -/
def TABLE_SIZES : List Nat :=
  [5, 13, 29, 53, 97, 193, 389, 769, 1543, 3079, 6151, 12289, 24593,
   49157, 98317, 196613, 393241, 786433, 1572869]

/-- Python: `self.table_size`, the length of the backing array. -/
def StepTable.tableSize (t : StepTable V) : Nat := t.array.length

/-- Python: `HashyStepTable.__init__`: size index 0, a fresh all-`None`
array of the first ladder size, count 0. -/
def initTable (sizes : List Nat) : StepTable V :=
  { sizes := sizes
    sizeIndex := 0
    array := List.replicate (sizes.getD 0 0) Slot.empty
    count := 0 }

/-- Loop body of `HashyStepTable.hash`: folds
`value = (ord(char) + a * value) % table_size` and
`a = a * HASH_BASE % (table_size - 1)` over the characters of the key
(HASH_BASE = 31, initial a = 31415). -/
def hashAux (ts : Nat) : List Char → Nat → Nat → Nat
  | [], value, _ => value
  | c :: cs, value, a => hashAux ts cs ((c.toNat + a * value) % ts) (a * 31 % (ts - 1))

/-- Python: `HashyStepTable.hash`, the primary (position) hash. -/
def hash1 (ts : Nat) (key : String) : Nat :=
  hashAux ts key.data 0 31415

/-- Python: `HashyStepTable.hash2`, the step hash:
`1 + (self.hash(key) * 13 + len(key)) % (self.table_size - 1)`. -/
def hash2 (ts : Nat) (key : String) : Nat :=
  1 + (hash1 ts key * 13 + key.length) % (ts - 1)

/-- Result of `_hashy_probe`: a slot index, a raised `KeyError`, a raised
`FullError`, or fuel exhaustion (proved unreachable). -/
inductive ProbeResult where
  | found (i : Nat) : ProbeResult
  | keyError : ProbeResult
  | fullError : ProbeResult
  | outOfFuel : ProbeResult
deriving DecidableEq

/-- The `while` loop of `HashyStepTable._hashy_probe`.  At a non-`None`
slot: return the position on a key match (the sentinel never matches),
otherwise advance by the step size modulo the table size and raise
`FullError`/`KeyError` on returning to the initial position.  On a `None`
slot the loop exits: the position is returned when inserting, otherwise
`KeyError` is raised. -/
def probeLoop (arr : List (Slot V)) (key : String) (isInsert : Bool)
    (stepSize init : Nat) : Nat → Nat → ProbeResult
  | 0, _ => .outOfFuel
  | fuel + 1, pos =>
    match arr.getD pos Slot.empty with
    | .empty => if isInsert then .found pos else .keyError
    | .occupied k _ =>
      if k = key then .found pos
      else
        let p := (pos + stepSize) % arr.length
        if p = init then (if isInsert then .fullError else .keyError)
        else probeLoop arr key isInsert stepSize init fuel p
    | .tombstone =>
      let p := (pos + stepSize) % arr.length
      if p = init then (if isInsert then .fullError else .keyError)
      else probeLoop arr key isInsert stepSize init fuel p

/-- Python: `HashyStepTable._hashy_probe`, starting at `hash(key)` with
step `hash2(key)`.  Fuel: the table size (sufficient, see claim C7). -/
def hashyProbe (t : StepTable V) (key : String) (isInsert : Bool) : ProbeResult :=
  probeLoop t.array key isInsert (hash2 t.tableSize key) (hash1 t.tableSize key)
    t.tableSize (hash1 t.tableSize key)

/-- Python: `HashyStepTable.__getitem__`: probe for lookup, then return the
value stored at the matched slot (`self.array[position][1]`; subscripting
`None` or the sentinel would be a `TypeError`, which is unreachable). -/
def getItem (t : StepTable V) (key : String) : Except TErr V :=
  match hashyProbe t key false with
  | .found i =>
    match t.array.getD i Slot.empty with
    | .occupied _ v => .ok v
    | _ => .error .typeError
  | .keyError => .error .keyError
  | .fullError => .error .fullError
  | .outOfFuel => .error .outOfFuel

/-- Result of a mutating operation.  Python exceptions do not roll back
mutations already performed on the object, so the error case carries the
table state as observable after the raise. -/
inductive SetResult (V : Type) where
  | ok (t : StepTable V) : SetResult V
  | err (e : TErr) (t : StepTable V) : SetResult V
deriving DecidableEq

/-- The reinsertion loop of `HashyStepTable._rehash`: for every item of the
old array that is neither `None` nor the sentinel, `self[key] = value`
(an exception propagates with the state reached so far). -/
def reinsertList (set1 : StepTable V → String → V → SetResult V) :
    StepTable V → List (Slot V) → SetResult V
  | t, [] => .ok t
  | t, Slot.occupied k v :: rest =>
    match set1 t k v with
    | .ok t1 => reinsertList set1 t1 rest
    | .err e t1 => .err e t1
  | t, Slot.empty :: rest => reinsertList set1 t rest
  | t, Slot.tombstone :: rest => reinsertList set1 t rest

/-- Python: `HashyStepTable._rehash`.  Note the source increments
`self.size_index` before checking for ladder exhaustion, so the failure
state has the advanced index.  Otherwise a fresh all-`None` array of the
next ladder size is installed, the count reset, and every occupied entry
of the old array reinserted through `__setitem__` (`set1`). -/
def rehashWith (set1 : StepTable V → String → V → SetResult V)
    (t : StepTable V) : SetResult V :=
  let oldArray := t.array
  let si := t.sizeIndex + 1
  if si ≥ t.sizes.length then
    .err .fullError { t with sizeIndex := si }
  else
    reinsertList set1
      { sizes := t.sizes
        sizeIndex := si
        array := List.replicate (t.sizes.getD si 0) Slot.empty
        count := 0 }
      oldArray

/-- Python: `HashyStepTable.__setitem__`: probe for insertion; increment
the count when the slot was `None`; store the pair; rehash when
`len(self) > table_size * 2 / 3`.  The fuel bounds the rehash nesting
depth (one level per ladder step, so `sizes.length + 1` always suffices). -/
def setItemF : Nat → StepTable V → String → V → SetResult V
  | 0, t, _, _ => .err .outOfFuel t
  | rfuel + 1, t, key, data =>
    match hashyProbe t key true with
    | .found pos =>
      let newCount : Int :=
        if (t.array.getD pos Slot.empty).isNone then t.count + 1 else t.count
      let t1 : StepTable V :=
        { t with array := t.array.set pos (Slot.occupied key data), count := newCount }
      if 3 * t1.count > 2 * (t1.tableSize : Int) then
        rehashWith (fun t2 k2 v2 => setItemF rfuel t2 k2 v2) t1
      else .ok t1
    | .keyError => .err .keyError t
    | .fullError => .err .fullError t
    | .outOfFuel => .err .outOfFuel t

/-- Python: `HashyStepTable.__setitem__` (with enough fuel for any chain of
nested rehashes: the size index strictly increases along the ladder). -/
def setItem (t : StepTable V) (key : String) (data : V) : SetResult V :=
  setItemF (t.sizes.length + 1) t key data

/-- Python: `HashyStepTable.__delitem__`: probe for lookup (raising
`KeyError` when absent), then lazily delete by storing the sentinel and
decrement the count. -/
def delItem (t : StepTable V) (key : String) : SetResult V :=
  match hashyProbe t key false with
  | .found pos =>
    match t.array.getD pos Slot.empty with
    | .occupied _ _ =>
      .ok { t with array := t.array.set pos Slot.tombstone, count := t.count - 1 }
    | _ => .err .keyError t
  | .keyError => .err .keyError t
  | .fullError => .err .fullError t
  | .outOfFuel => .err .outOfFuel t

/-- Python: `HashyStepTable.keys`: for every slot that `is not None`,
append `self.array[x][0]`.  Subscripting the tombstone sentinel raises
`TypeError`. -/
def keysStep : List (Slot V) → Except TErr (List String)
  | [] => .ok []
  | Slot.empty :: rest => keysStep rest
  | Slot.occupied k _ :: rest =>
    match keysStep rest with
    | .ok l => .ok (k :: l)
    | .error e => .error e
  | Slot.tombstone :: _ => .error .typeError

/-- Python: `HashyStepTable.values` (same traversal as `keys`). -/
def valuesStep : List (Slot V) → Except TErr (List V)
  | [] => .ok []
  | Slot.empty :: rest => valuesStep rest
  | Slot.occupied _ v :: rest =>
    match valuesStep rest with
    | .ok l => .ok (v :: l)
    | .error e => .error e
  | Slot.tombstone :: _ => .error .typeError

/-- Reference reading of the spec for `keys()`: the keys of the Occupied
slots, in physical slot order (tombstones and empties skipped). -/
def occupiedKeys (arr : List (Slot V)) : List String :=
  arr.filterMap fun s =>
    match s with
    | Slot.occupied k _ => some k
    | _ => none

/-- Key/value pairs of the occupied slots, in physical slot order. -/
def slotPairs (arr : List (Slot V)) : List (String × V) :=
  arr.filterMap fun s =>
    match s with
    | Slot.occupied k v => some (k, v)
    | _ => none

/-- Number of occupied slots. -/
def occCount (arr : List (Slot V)) : Nat :=
  (arr.filterMap fun s =>
    match s with
    | Slot.occupied k v => some (k, v)
    | _ => none).length

/-- The table stores `k` in some occupied slot. -/
def hasKey (t : StepTable V) (k : String) : Prop :=
  ∃ i w, t.array.getD i Slot.empty = Slot.occupied k w

/-- No tombstones anywhere in the array. -/
def noTomb (t : StepTable V) : Prop :=
  ∀ i, t.array.getD i Slot.empty ≠ Slot.tombstone

/-! ### The fixed-capacity perfection table (src/hashy_perfection_table.py) -/

/-- Errors of the fixed table: `invalidKey` is the `KeyError("Invalid key")`
raised by `_is_valid_key` (the spec's InvalidKey), `keyError` the
`KeyError(key + " not found")` (the spec's KeyNotFound), `indexError`
Python's `IndexError` from `key[0]` on an empty key, and
`zeroDivisionError` Python's error for `% 0` (capacity 0, never built). -/
inductive PErr where
  | invalidKey : PErr
  | keyError : PErr
  | indexError : PErr
  | zeroDivisionError : PErr
deriving DecidableEq

/-- State of a `HashyPerfectionTable`: a backing array of optional pairs
(fixed at 13 slots by the constructor) and the count (a Python `int`,
which `__delitem__` can drive negative). -/
structure PerfTable (V : Type) where
  array : List (Option (String × V))
  count : Int
deriving DecidableEq

/-- Python: `HashyPerfectionTable.__init__` (capacity 13). -/
def initPerf : PerfTable V :=
  { array := List.replicate 13 none, count := 0 }

/-- Python: `HashyPerfectionTable.hash`:
`(ord(key[0])*3 + ord(key[-1])*5 + ord(key[len(key)//2])*7) % table_size`.
Indexing `key[0]` on the empty string raises `IndexError` (before the
modulus is taken), and `% 0` would raise `ZeroDivisionError`. -/
def hashPerf (ts : Nat) (key : String) : Except PErr Nat :=
  match key.data with
  | [] => .error .indexError
  | c :: cs =>
    if ts = 0 then .error .zeroDivisionError
    else
      .ok ((c.toNat * 3 + ((c :: cs).getLastD c).toNat * 5
        + ((c :: cs).getD ((c :: cs).length / 2) c).toNat * 7) % ts)

/-- Modelled from the spec: the declared closed key universe (the
`PlayerStats` enumeration lives in `constants.py`, which is not under
src/) is abstracted as an explicit list of valid keys; `_is_valid_key`
raises InvalidKey exactly for keys outside it. -/
def isValidKey (validKeys : List String) (key : String) : Bool :=
  validKeys.contains key

/-- Python: `HashyPerfectionTable.__getitem__`: validate, hash, raise
`KeyError` on an empty slot, else return the stored value. -/
def getItemPerf (validKeys : List String) (t : PerfTable V) (key : String) :
    Except PErr V :=
  if isValidKey validKeys key then
    match hashPerf t.array.length key with
    | .error e => .error e
    | .ok pos =>
      match t.array.getD pos none with
      | none => .error .keyError
      | some (_, v) => .ok v
  else .error .invalidKey

/-- Python: `HashyPerfectionTable.__setitem__`: validate, hash, increment
the count when the slot was `None`, store the pair unconditionally. -/
def setItemPerf (validKeys : List String) (t : PerfTable V) (key : String)
    (data : V) : Except PErr (PerfTable V) :=
  if isValidKey validKeys key then
    match hashPerf t.array.length key with
    | .error e => .error e
    | .ok pos =>
      let newCount : Int :=
        if (t.array.getD pos none).isNone then t.count + 1 else t.count
      .ok { array := t.array.set pos (some (key, data)), count := newCount }
  else .error .invalidKey

/-- Python: `HashyPerfectionTable.__delitem__`: no validation, no presence
check — hash the key, clear the slot to `None`, decrement the count. -/
def delItemPerf (t : PerfTable V) (key : String) : Except PErr (PerfTable V) :=
  match hashPerf t.array.length key with
  | .error e => .error e
  | .ok pos =>
    .ok { array := t.array.set pos none, count := t.count - 1 }

/-- Python: `HashyPerfectionTable.keys`: allocates a result array, then
`for x in range(len(self))` — note `len(self)` is `self.count`, NOT the
table size — appends `self.array[x][0]` for non-`None` slots.  The model
returns the appended keys (in order); indexing beyond the backing array
raises `IndexError`, and `range` of a negative count is empty. -/
def keysPerfAux (arr : List (Option (String × V))) : Nat → Except PErr (List String)
  | 0 => .ok []
  | n + 1 =>
    match keysPerfAux arr n with
    | .error e => .error e
    | .ok acc =>
      if n < arr.length then
        match arr.getD n none with
        | some (k, _) => .ok (acc ++ [k])
        | none => .ok acc
      else .error .indexError

/-- Python: `HashyPerfectionTable.keys` (see `keysPerfAux`). -/
def keysPerf (t : PerfTable V) : Except PErr (List String) :=
  keysPerfAux t.array t.count.toNat

/-- Python: `HashyPerfectionTable.values` (same `range(len(self))` bug). -/
def valuesPerfAux (arr : List (Option (String × V))) : Nat → Except PErr (List V)
  | 0 => .ok []
  | n + 1 =>
    match valuesPerfAux arr n with
    | .error e => .error e
    | .ok acc =>
      if n < arr.length then
        match arr.getD n none with
        | some (_, v) => .ok (acc ++ [v])
        | none => .ok acc
      else .error .indexError

/-- Python: `HashyPerfectionTable.values` (see `valuesPerfAux`). -/
def valuesPerf (t : PerfTable V) : Except PErr (List V) :=
  valuesPerfAux t.array t.count.toNat

/-- Reference reading of the spec for the fixed table's `keys()`:
keys of all occupied slots in physical slot order. -/
def occupiedKeysPerf (arr : List (Option (String × V))) : List String :=
  arr.filterMap fun s =>
    match s with
    | some (k, _) => some k
    | none => none

/-- A slot at which an insert-probe for `key` may stop. -/
def goodSlot (key : String) : Slot V → Prop
  | Slot.empty => True
  | Slot.occupied k _ => k = key
  | Slot.tombstone => False

/-- Array-level form of `noTomb`. -/
def noTombArr (arr : List (Slot V)) : Prop :=
  ∀ i, arr.getD i Slot.empty ≠ Slot.tombstone

/-- Retrievability: every occupied slot is found by a lookup probe for its
key.  This is the inductive invariant that makes double hashing correct. -/
def ArrInv (arr : List (Slot V)) : Prop :=
  ∀ i k w, arr.getD i Slot.empty = Slot.occupied k w →
    probeLoop arr k false (hash2 arr.length k) (hash1 arr.length k)
      arr.length (hash1 arr.length k) = .found i

/-- Well-formedness of a step table, preserved by every successful
operation from a fresh table. -/
structure Wf (t : StepTable V) : Prop where
  lenEq : t.array.length = t.sizes.getD t.sizeIndex 0
  idxLt : t.sizeIndex < t.sizes.length
  countEq : t.count = (occCount t.array : Int)
  loadOK : 3 * t.count ≤ 2 * (t.array.length : Int)
  retr : ArrInv t.array

/-- Positional uniqueness of keys. -/
def UniqueKeys (arr : List (Slot V)) : Prop :=
  ∀ i j k w w2, arr.getD i Slot.empty = Slot.occupied k w →
    arr.getD j Slot.empty = Slot.occupied k w2 → i = j

/-- Everything a successful `__setitem__` guarantees: the table stays
well-formed and on the same ladder, the written key reads back, successful
reads of other keys are preserved, no new keys appear, and no tombstones
appear. -/
def SetSpec (t : StepTable V) (key : String) (data : V) (t2 : StepTable V) : Prop :=
  Wf t2 ∧ t2.sizes = t.sizes ∧ t.sizeIndex ≤ t2.sizeIndex ∧
  getItem t2 key = .ok data ∧
  (∀ k2 v2, k2 ≠ key → getItem t k2 = .ok v2 → getItem t2 k2 = .ok v2) ∧
  (∀ k2, hasKey t2 k2 → hasKey t k2 ∨ k2 = key) ∧
  (noTomb t → noTomb t2) ∧
  (hasKey t key →
    t2.sizeIndex = t.sizeIndex ∧ t2.count = t.count ∧
    t2.array.length = t.array.length) ∧
  (¬ hasKey t key →
    (3 * (t.count + 1) ≤ 2 * (t.array.length : Int) →
      t2.sizeIndex = t.sizeIndex ∧ t2.count = t.count + 1 ∧
      t2.array.length = t.array.length) ∧
    (3 * (t.count + 1) > 2 * (t.array.length : Int) →
      t.sizeIndex < t2.sizeIndex))

/-- States reachable from a fresh table by successful operations. -/
inductive Reachable (sizes : List Nat) : StepTable V → Prop where
  | init : sizes ≠ [] → Reachable sizes (initTable sizes)
  | set {t t2 : StepTable V} (k : String) (v : V) :
      Reachable sizes t → setItem t k v = .ok t2 → Reachable sizes t2
  | del {t t2 : StepTable V} (k : String) :
      Reachable sizes t → delItem t k = .ok t2 → Reachable sizes t2

/-- The spec's invariants on the growth ladder: non-empty, all capacities
prime, strictly increasing. -/
def ladderOK (sizes : List Nat) : Prop :=
  sizes ≠ [] ∧ (∀ s ∈ sizes, Nat.Prime s) ∧
  ∀ i, i + 1 < sizes.length → sizes.getD i 0 < sizes.getD (i + 1) 0

/-- The table state carried by a `SetResult`: mutations performed before a
Python raise stay visible on the object. -/
def resState : SetResult V → StepTable V
  | .ok t => t
  | .err _ t => t

/-- The fixed table of a result, with a fallback for the error case. -/
def perfState (d : PerfTable V) : Except PErr (PerfTable V) → PerfTable V
  | .ok t => t
  | .error _ => d

/-- Concrete run on the growth ladder `[5, 13]` (claims C1, C2, C5, C9):
state after the first insert. -/
def c1t1 : StepTable Int := resState (setItem (initTable [5, 13]) "a" 1)

/-- Second insert of the `[5, 13]` run. -/
def c1t2 : StepTable Int := resState (setItem c1t1 "b" 2)

/-- Third insert of the `[5, 13]` run: load 3/5, still below 2/3. -/
def c1t3 : StepTable Int := resState (setItem c1t2 "c" 3)

/-- Fourth insert of the `[5, 13]` run: load 4/5 breaches 2/3, so the table
rehashes to capacity 13. -/
def c1t4 : StepTable Int := resState (setItem c1t3 "d" 4)

/-- Claim C5: deleting `"a"` from the two-key table leaves a tombstone
next to an occupied slot. -/
def tombTable : StepTable Int := resState (delItem c1t2 "a")

/-- Claim C3: delete the three keys of `c1t3`, leaving three tombstones. -/
def c3d1 : StepTable Int := resState (delItem c1t3 "a")

/-- Second delete of the claim C3 run. -/
def c3d2 : StepTable Int := resState (delItem c3d1 "b")

/-- Third delete of the claim C3 run: three tombstones, count 0. -/
def c3d3 : StepTable Int := resState (delItem c3d2 "c")

/-- Claim C3: reinsert a fresh key into one of the two remaining `None`
slots (count 1, no rehash). -/
def c3t4 : StepTable Int := resState (setItem c3d3 "d" 4)

/-- Claim C3: the saturated table — three tombstones and two occupied
slots, no `None` slot left, size index still 0, count 2 (load 2/5). -/
def satTable : StepTable Int := resState (setItem c3t4 "e" 5)

/-- Claim C4: first insert on the single-entry growth ladder `[5]`. -/
def c4t1 : StepTable Int := resState (setItem (initTable [5]) "a" 1)

/-- Second insert of the claim C4 run. -/
def c4t2 : StepTable Int := resState (setItem c4t1 "b" 2)

/-- Claim C4: three keys stored on ladder `[5]` (load 3/5); the next fresh
insert breaches the load factor with no ladder entry left. -/
def wTable : StepTable Int := resState (setItem c4t2 "c" 3)

/-- Claim C4: the state observable after the failing fourth insert — the
new key is written, the count is 4 and the size index moved to 1. -/
def wErr : StepTable Int := resState (setItem wTable "d" 4)

/-- Claims C2 and C5: fixed table after `set("goals", 7)` over the valid
key universe `["goals"]`; the pair lands in slot 3 while the count is 1. -/
def perfGoals : PerfTable Int := perfState initPerf (setItemPerf ["goals"] initPerf "goals" 7)

/-- Claim C6: fixed table after deleting the absent key `"goals"` once —
the count is already -1. -/
def pdel1 : PerfTable Int := perfState initPerf (delItemPerf (initPerf : PerfTable Int) "goals")

/-! ### Generic list helpers -/

theorem getD_set_self {α : Type u} (l : List α) (i : Nat) (x d : α)
    (h : i < l.length) : (l.set i x).getD i d = x := by
  rw [List.getD_eq_getElem _ _ (by simpa using h)]
  exact List.getElem_set_self (by simpa using h)

theorem getD_set_ne {α : Type u} (l : List α) (i j : Nat) (x d : α)
    (hij : i ≠ j) : (l.set i x).getD j d = l.getD j d := by
  rw [List.getD_eq_getD_get?, List.getD_eq_getD_get?, List.get?_eq_getElem?,
    List.get?_eq_getElem?, List.getElem?_set_ne hij]

theorem getD_replicate_self {α : Type u} (n i : Nat) (x : α) :
    (List.replicate n x).getD i x = x := by
  rcases Nat.lt_or_ge i n with h | h
  · rw [List.getD_eq_getElem _ _ (by simpa using h)]
    simp
  · exact List.getD_eq_default _ _ (by simpa using h)

/-! ### Occupied-slot bookkeeping -/

theorem occCount_nil : occCount ([] : List (Slot V)) = 0 := rfl

theorem occCount_cons_occ (k : String) (v : V) (rest : List (Slot V)) :
    occCount (Slot.occupied k v :: rest) = occCount rest + 1 := by
  simp [occCount, List.filterMap_cons]

theorem occCount_cons_empty (rest : List (Slot V)) :
    occCount (Slot.empty :: rest) = occCount rest := by
  simp [occCount, List.filterMap_cons]

theorem occCount_cons_tomb (rest : List (Slot V)) :
    occCount (Slot.tombstone :: rest) = occCount rest := by
  simp [occCount, List.filterMap_cons]

theorem occCount_le_length (arr : List (Slot V)) : occCount arr ≤ arr.length := by
  induction arr with
  | nil => simp [occCount_nil]
  | cons s rest ih =>
    cases s with
    | empty => rw [occCount_cons_empty]; exact Nat.le_succ_of_le ih
    | tombstone => rw [occCount_cons_tomb]; exact Nat.le_succ_of_le ih
    | occupied k v => rw [occCount_cons_occ]; simpa using Nat.succ_le_succ ih

theorem occCount_replicate_empty (n : Nat) :
    occCount (List.replicate n (Slot.empty : Slot V)) = 0 := by
  induction n with
  | zero => rfl
  | succ m ih => rw [List.replicate_succ, occCount_cons_empty, ih]

theorem occCount_eq_slotPairs_length (arr : List (Slot V)) :
    occCount arr = (slotPairs arr).length := rfl

theorem occCount_set_of_empty (arr : List (Slot V)) (i : Nat) (k : String) (v : V)
    (hi : i < arr.length) (he : arr.getD i Slot.empty = Slot.empty) :
    occCount (arr.set i (Slot.occupied k v)) = occCount arr + 1 := by
  induction arr generalizing i with
  | nil => simp at hi
  | cons s rest ih =>
    cases i with
    | zero =>
      simp only [List.getD_cons_zero] at he
      subst he
      rw [List.set_cons_zero, occCount_cons_occ, occCount_cons_empty]
    | succ j =>
      rw [List.set_cons_succ]
      have hj : j < rest.length := by simpa using hi
      have he' : rest.getD j Slot.empty = Slot.empty := by
        simpa [List.getD_cons_succ] using he
      cases s with
      | empty => rw [occCount_cons_empty, occCount_cons_empty]; exact ih j hj he'
      | tombstone => rw [occCount_cons_tomb, occCount_cons_tomb]; exact ih j hj he'
      | occupied k0 w =>
        rw [occCount_cons_occ, occCount_cons_occ, ih j hj he']

theorem occCount_set_of_occ (arr : List (Slot V)) (i : Nat) (k k0 : String) (v w : V)
    (ho : arr.getD i Slot.empty = Slot.occupied k0 w) :
    occCount (arr.set i (Slot.occupied k v)) = occCount arr := by
  induction arr generalizing i with
  | nil => simp at ho
  | cons s rest ih =>
    cases i with
    | zero =>
      simp only [List.getD_cons_zero] at ho
      subst ho
      rw [List.set_cons_zero, occCount_cons_occ, occCount_cons_occ]
    | succ j =>
      rw [List.set_cons_succ]
      have ho' : rest.getD j Slot.empty = Slot.occupied k0 w := by
        simpa [List.getD_cons_succ] using ho
      cases s with
      | empty => rw [occCount_cons_empty, occCount_cons_empty]; exact ih j ho'
      | tombstone => rw [occCount_cons_tomb, occCount_cons_tomb]; exact ih j ho'
      | occupied k1 w1 => rw [occCount_cons_occ, occCount_cons_occ, ih j ho']

theorem occCount_set_tomb (arr : List (Slot V)) (i : Nat) (k0 : String) (w : V)
    (ho : arr.getD i Slot.empty = Slot.occupied k0 w) :
    occCount (arr.set i Slot.tombstone) + 1 = occCount arr := by
  induction arr generalizing i with
  | nil => simp at ho
  | cons s rest ih =>
    cases i with
    | zero =>
      simp only [List.getD_cons_zero] at ho
      subst ho
      rw [List.set_cons_zero, occCount_cons_tomb, occCount_cons_occ]
    | succ j =>
      rw [List.set_cons_succ]
      have ho' : rest.getD j Slot.empty = Slot.occupied k0 w := by
        simpa [List.getD_cons_succ] using ho
      cases s with
      | empty => rw [occCount_cons_empty, occCount_cons_empty]; exact ih j ho'
      | tombstone => rw [occCount_cons_tomb, occCount_cons_tomb]; exact ih j ho'
      | occupied k1 w1 => rw [occCount_cons_occ, occCount_cons_occ, ih j ho']

theorem mem_slotPairs {arr : List (Slot V)} {k : String} {v : V} :
    (k, v) ∈ slotPairs arr ↔ ∃ i, arr.getD i Slot.empty = Slot.occupied k v := by
  induction arr with
  | nil =>
    simp only [slotPairs, List.filterMap_nil, List.not_mem_nil, false_iff]
    rintro ⟨i, hi⟩
    simp at hi
  | cons s rest ih =>
    constructor
    · intro hmem
      cases s with
      | empty =>
        simp only [slotPairs, List.filterMap_cons] at hmem
        obtain ⟨i, hi⟩ := ih.mp hmem
        exact ⟨i + 1, by simpa [List.getD_cons_succ] using hi⟩
      | tombstone =>
        simp only [slotPairs, List.filterMap_cons] at hmem
        obtain ⟨i, hi⟩ := ih.mp hmem
        exact ⟨i + 1, by simpa [List.getD_cons_succ] using hi⟩
      | occupied k0 w =>
        simp only [slotPairs, List.filterMap_cons, List.mem_cons] at hmem
        rcases hmem with heq | hmem
        · refine ⟨0, ?_⟩
          rw [List.getD_cons_zero]
          rw [Prod.mk.injEq] at heq
          rw [heq.1, heq.2]
        · obtain ⟨i, hi⟩ := ih.mp hmem
          exact ⟨i + 1, by simpa [List.getD_cons_succ] using hi⟩
    · rintro ⟨i, hi⟩
      cases i with
      | zero =>
        rw [List.getD_cons_zero] at hi
        subst hi
        simp [slotPairs, List.filterMap_cons]
      | succ j =>
        rw [List.getD_cons_succ] at hi
        have hmem := ih.mpr ⟨j, hi⟩
        cases s with
        | empty => simpa [slotPairs, List.filterMap_cons] using hmem
        | tombstone => simpa [slotPairs, List.filterMap_cons] using hmem
        | occupied k0 w =>
          simp only [slotPairs, List.filterMap_cons, List.mem_cons]
          exact Or.inr hmem

theorem exists_empty_slot {arr : List (Slot V)} (hnt : noTombArr arr)
    (hlt : occCount arr < arr.length) :
    ∃ i, i < arr.length ∧ arr.getD i Slot.empty = Slot.empty := by
  induction arr with
  | nil => simp at hlt
  | cons s rest ih =>
    cases s with
    | empty => exact ⟨0, by simp, by simp⟩
    | tombstone => exact absurd (by simp : (Slot.tombstone :: rest).getD 0 Slot.empty = Slot.tombstone) (hnt 0)
    | occupied k v =>
      have hnt' : noTombArr rest := fun i => by
        simpa [List.getD_cons_succ] using hnt (i + 1)
      have hlt' : occCount rest < rest.length := by
        rw [occCount_cons_occ] at hlt
        simpa using hlt
      obtain ⟨i, hi, he⟩ := ih hnt' hlt'
      exact ⟨i + 1, by simpa using hi, by simpa [List.getD_cons_succ] using he⟩

/-! ### Probe traversal lemmas -/

theorem probe_found_slot_insert {arr : List (Slot V)} {key : String} {s init : Nat} :
    ∀ {fuel pos i : Nat}, probeLoop arr key true s init fuel pos = .found i →
      goodSlot key (arr.getD i Slot.empty) := by
  intro fuel
  induction fuel with
  | zero => intro pos i h; simp [probeLoop] at h
  | succ f ih =>
    intro pos i h
    rw [probeLoop] at h
    rcases hs : arr.getD pos Slot.empty with _ | _ | ⟨k, w⟩ <;> rw [hs] at h
    · simp only [if_pos rfl] at h
      cases h
      rw [hs]; trivial
    · simp only at h
      split at h
      · exact absurd h (by simp)
      · exact ih h
    · simp only at h
      by_cases hk : k = key
      · rw [if_pos hk] at h
        cases h
        rw [hs]; exact hk
      · rw [if_neg hk] at h
        split at h
        · exact absurd h (by simp)
        · exact ih h

theorem probe_found_slot_lookup {arr : List (Slot V)} {key : String} {s init : Nat} :
    ∀ {fuel pos i : Nat}, probeLoop arr key false s init fuel pos = .found i →
      ∃ w, arr.getD i Slot.empty = Slot.occupied key w := by
  intro fuel
  induction fuel with
  | zero => intro pos i h; simp [probeLoop] at h
  | succ f ih =>
    intro pos i h
    rw [probeLoop] at h
    rcases hs : arr.getD pos Slot.empty with _ | _ | ⟨k, w⟩ <;> rw [hs] at h
    · exact absurd h (by simp)
    · simp only at h
      split at h
      · exact absurd h (by simp)
      · exact ih h
    · simp only at h
      by_cases hk : k = key
      · rw [if_pos hk] at h
        cases h
        exact ⟨w, by rw [hs, hk]⟩
      · rw [if_neg hk] at h
        split at h
        · exact absurd h (by simp)
        · exact ih h

theorem probe_found_lt {arr : List (Slot V)} {key : String} {b : Bool} {s init : Nat}
    (hlen : 0 < arr.length) :
    ∀ {fuel pos i : Nat}, pos < arr.length →
      probeLoop arr key b s init fuel pos = .found i → i < arr.length := by
  intro fuel
  induction fuel with
  | zero => intro pos i _ h; simp [probeLoop] at h
  | succ f ih =>
    intro pos i hpos h
    rw [probeLoop] at h
    rcases hs : arr.getD pos Slot.empty with _ | _ | ⟨k, w⟩ <;> rw [hs] at h
    · simp only at h
      split at h
      · cases h; exact hpos
      · exact absurd h (by simp)
    · simp only at h
      split at h
      · split at h <;> exact absurd h (by simp)
      · exact ih (Nat.mod_lt _ hlen) h
    · simp only at h
      by_cases hk : k = key
      · rw [if_pos hk] at h
        cases h; exact hpos
      · rw [if_neg hk] at h
        split at h
        · split at h <;> exact absurd h (by simp)
        · exact ih (Nat.mod_lt _ hlen) h

theorem probe_set_found {arr : List (Slot V)} {key : String} {v : V} {s init : Nat}
    (hlen : 0 < arr.length) :
    ∀ {fuel pos i : Nat}, pos < arr.length →
      probeLoop arr key true s init fuel pos = .found i →
      probeLoop (arr.set i (Slot.occupied key v)) key false s init fuel pos = .found i := by
  intro fuel
  induction fuel with
  | zero => intro pos i _ h; simp [probeLoop] at h
  | succ f ih =>
    intro pos i hpos h
    have hgood := probe_found_slot_insert h
    rw [probeLoop] at h
    rw [probeLoop]
    rcases hs : arr.getD pos Slot.empty with _ | _ | ⟨k, w⟩ <;> rw [hs] at h
    · simp only [if_pos rfl] at h
      cases h
      rw [getD_set_self _ _ _ _ hpos]
      simp
    · simp only at h
      have hpi : pos ≠ i := by
        intro hcontra
        rw [← hcontra, hs] at hgood
        exact hgood
      rw [getD_set_ne _ _ _ _ _ (Ne.symm hpi), hs]
      simp only [List.length_set]
      split at h
      · exact absurd h (by simp)
      · rename_i hpne
        rw [if_neg hpne]
        exact ih (Nat.mod_lt _ hlen) h
    · simp only at h
      by_cases hk : k = key
      · rw [if_pos hk] at h
        cases h
        rw [getD_set_self _ _ _ _ hpos]
        simp
      · rw [if_neg hk] at h
        have hpi : pos ≠ i := by
          intro hcontra
          rw [← hcontra, hs] at hgood
          exact hk hgood
        rw [getD_set_ne _ _ _ _ _ (Ne.symm hpi), hs]
        simp only [List.length_set]
        rw [if_neg hk]
        split at h
        · exact absurd h (by simp)
        · rename_i hpne
          rw [if_neg hpne]
          exact ih (Nat.mod_lt _ hlen) h

theorem probe_true_of_false {arr : List (Slot V)} {key : String} {s init : Nat} :
    ∀ {fuel pos i : Nat}, probeLoop arr key false s init fuel pos = .found i →
      probeLoop arr key true s init fuel pos = .found i := by
  intro fuel
  induction fuel with
  | zero => intro pos i h; simp [probeLoop] at h
  | succ f ih =>
    intro pos i h
    rw [probeLoop] at h
    rw [probeLoop]
    rcases hs : arr.getD pos Slot.empty with _ | _ | ⟨k, w⟩ <;> rw [hs] at h
    · exact absurd h (by simp)
    · simp only at h
      simp only
      split at h
      · exact absurd h (by simp)
      · rename_i hpne
        rw [if_neg hpne]
        exact ih h
    · simp only at h
      simp only
      by_cases hk : k = key
      · rwa [if_pos hk] at h ⊢
      · rw [if_neg hk] at h ⊢
        split at h
        · exact absurd h (by simp)
        · rename_i hpne
          rw [if_neg hpne]
          exact ih h

theorem probe_lookup_set_other {arr : List (Slot V)} {key kk : String} {v : V}
    {i s init : Nat} (hkk : key ≠ kk)
    (hgood : goodSlot key (arr.getD i Slot.empty)) :
    ∀ {fuel pos j : Nat}, probeLoop arr kk false s init fuel pos = .found j →
      probeLoop (arr.set i (Slot.occupied key v)) kk false s init fuel pos = .found j
        ∧ j ≠ i := by
  intro fuel
  induction fuel with
  | zero => intro pos j h; simp [probeLoop] at h
  | succ f ih =>
    intro pos j h
    rw [probeLoop] at h
    rw [probeLoop]
    rcases hs : arr.getD pos Slot.empty with _ | _ | ⟨k, w⟩ <;> rw [hs] at h
    · exact absurd h (by simp)
    · -- tombstone at `pos`: the written slot `i` is empty or holds `key`,
      -- so `pos ≠ i` and the traversal is unchanged
      have hpi : pos ≠ i := by
        intro hcontra
        rw [← hcontra, hs] at hgood
        exact hgood
      rw [getD_set_ne _ _ _ _ _ (Ne.symm hpi)]
      rw [hs]
      simp only [List.length_set] at h ⊢
      split at h
      · exact absurd h (by simp)
      · rename_i hpne
        rw [if_neg hpne]
        exact ih h
    · simp only at h
      by_cases hk : k = kk
      · rw [if_pos hk] at h
        cases h
        subst hk
        have hji : pos ≠ i := by
          intro hcontra
          rw [← hcontra, hs] at hgood
          have hkeq : k = key := hgood
          exact hkk hkeq.symm
        rw [getD_set_ne _ _ _ _ _ (Ne.symm hji)]
        rw [hs]
        exact ⟨by simp, hji⟩
      · rw [if_neg hk] at h
        split at h
        · exact absurd h (by simp)
        · rename_i hpne
          obtain ⟨hres, hji⟩ := ih h
          refine ⟨?_, hji⟩
          by_cases hpi : pos = i
          · have hlt : pos < arr.length := by
              rcases Nat.lt_or_ge pos arr.length with hl | hl
              · exact hl
              · rw [List.getD_eq_default _ _ hl] at hs
                simp at hs
            subst hpi
            rw [hs] at hgood
            have hkeq : k = key := hgood
            rw [getD_set_self _ _ _ _ hlt]
            simp only [List.length_set]
            rw [if_neg hkk]
            rw [if_neg hpne]
            exact hres
          · rw [getD_set_ne _ _ _ _ _ (Ne.symm hpi)]
            rw [hs]
            simp only [List.length_set]
            rw [if_neg hk]
            rw [if_neg hpne]
            exact hres

theorem probe_lookup_tomb_other {arr : List (Slot V)} {kdel kk : String} {w0 : V}
    {i s init : Nat} (hne : kdel ≠ kk)
    (hocc : arr.getD i Slot.empty = Slot.occupied kdel w0) :
    ∀ {fuel pos j : Nat}, probeLoop arr kk false s init fuel pos = .found j →
      probeLoop (arr.set i Slot.tombstone) kk false s init fuel pos = .found j
        ∧ j ≠ i := by
  intro fuel
  induction fuel with
  | zero => intro pos j h; simp [probeLoop] at h
  | succ f ih =>
    intro pos j h
    rw [probeLoop] at h
    rw [probeLoop]
    rcases hs : arr.getD pos Slot.empty with _ | _ | ⟨k, w⟩ <;> rw [hs] at h
    · exact absurd h (by simp)
    · have hpi : pos ≠ i := by
        intro hcontra
        rw [← hcontra, hs] at hocc
        exact absurd hocc (by simp)
      rw [getD_set_ne _ _ _ _ _ (Ne.symm hpi)]
      rw [hs]
      simp only [List.length_set] at h ⊢
      split at h
      · exact absurd h (by simp)
      · rename_i hpne
        rw [if_neg hpne]
        exact ih h
    · simp only at h
      by_cases hk : k = kk
      · rw [if_pos hk] at h
        cases h
        subst hk
        have hji : pos ≠ i := by
          intro hcontra
          rw [← hcontra, hs] at hocc
          rw [Slot.occupied.injEq] at hocc
          exact hne hocc.1.symm
        rw [getD_set_ne _ _ _ _ _ (Ne.symm hji)]
        rw [hs]
        exact ⟨by simp, hji⟩
      · rw [if_neg hk] at h
        split at h
        · exact absurd h (by simp)
        · rename_i hpne
          obtain ⟨hres, hji⟩ := ih h
          refine ⟨?_, hji⟩
          by_cases hpi : pos = i
          · have hlt : pos < arr.length := by
              rcases Nat.lt_or_ge pos arr.length with hl | hl
              · exact hl
              · rw [List.getD_eq_default _ _ hl] at hs
                simp at hs
            subst hpi
            rw [getD_set_self _ _ _ _ hlt]
            simp only [List.length_set]
            rw [if_neg hpne]
            exact hres
          · rw [getD_set_ne _ _ _ _ _ (Ne.symm hpi)]
            rw [hs]
            simp only [List.length_set]
            rw [if_neg hk]
            rw [if_neg hpne]
            exact hres

theorem probe_insert_ne_keyError {arr : List (Slot V)} {key : String} {s init : Nat} :
    ∀ {fuel pos : Nat}, probeLoop arr key true s init fuel pos ≠ .keyError := by
  intro fuel
  induction fuel with
  | zero => intro pos h; simp [probeLoop] at h
  | succ f ih =>
    intro pos h
    rw [probeLoop] at h
    rcases hs : arr.getD pos Slot.empty with _ | _ | ⟨k, w⟩ <;> rw [hs] at h
    · simp at h
    · simp only at h
      split at h
      · simp at h
      · exact ih h
    · simp only at h
      by_cases hk : k = key
      · rw [if_pos hk] at h; simp at h
      · rw [if_neg hk] at h
        split at h
        · simp at h
        · exact ih h

theorem step_mod (len pos s j : Nat) (hj : 1 ≤ j) :
    ((pos + s) % len + (j - 1) * s) % len = (pos + j * s) % len := by
  obtain ⟨j0, rfl⟩ : ∃ j0, j = j0 + 1 := ⟨j - 1, (Nat.succ_pred_eq_of_pos hj).symm⟩
  rw [Nat.add_sub_cancel, Nat.mod_add_mod]
  congr 1
  ring

theorem probe_ne_outOfFuel {arr : List (Slot V)} {key : String} {b : Bool} {s init : Nat} :
    ∀ {fuel pos : Nat}, (∃ j, 1 ≤ j ∧ j ≤ fuel ∧ (pos + j * s) % arr.length = init) →
      probeLoop arr key b s init fuel pos ≠ .outOfFuel := by
  intro fuel
  induction fuel with
  | zero =>
    rintro pos ⟨j, hj1, hj0, _⟩ _
    omega
  | succ f ih =>
    rintro pos ⟨j, hj1, hjf, hjinit⟩ h
    rw [probeLoop] at h
    rcases hs : arr.getD pos Slot.empty with _ | _ | ⟨k, w⟩ <;> rw [hs] at h
    · simp only at h
      split at h <;> simp at h
    · simp only at h
      split at h
      · split at h <;> simp at h
      · rename_i hpne
        refine ih ?_ h
        refine ⟨j - 1, ?_, by omega, ?_⟩
        · rcases Nat.eq_or_lt_of_le hj1 with h1 | h1
          · exact absurd (by simpa [← h1] using hjinit) hpne
          · omega
        · rw [step_mod _ _ _ _ hj1]
          exact hjinit
    · simp only at h
      split at h
      · simp at h
      · split at h
        · split at h <;> simp at h
        · rename_i hpne
          refine ih ?_ h
          refine ⟨j - 1, ?_, by omega, ?_⟩
          · rcases Nat.eq_or_lt_of_le hj1 with h1 | h1
            · exact absurd (by simpa [← h1] using hjinit) hpne
            · omega
          · rw [step_mod _ _ _ _ hj1]
            exact hjinit

theorem probe_finds_good {arr : List (Slot V)} {key : String} {s init : Nat}
    (hlen : 0 < arr.length) :
    ∀ {fuel pos : Nat}, pos < arr.length →
      (∃ j, j < fuel ∧ goodSlot key (arr.getD ((pos + j * s) % arr.length) Slot.empty) ∧
        ∀ m, 1 ≤ m → m ≤ j → (pos + m * s) % arr.length ≠ init) →
      ∃ i, probeLoop arr key true s init fuel pos = .found i := by
  intro fuel
  induction fuel with
  | zero =>
    rintro pos _ ⟨j, hj0, _, _⟩
    omega
  | succ f ih =>
    rintro pos hpos ⟨j, hjf, hjgood, hjno⟩
    rw [probeLoop]
    rcases hs : arr.getD pos Slot.empty with _ | _ | ⟨k, w⟩
    · exact ⟨pos, by simp⟩
    · -- tombstone at `pos`: the good slot is strictly later on the path
      have hj1 : 1 ≤ j := by
        rcases Nat.eq_or_lt_of_le (Nat.zero_le j) with h0 | h0
        · rw [← h0, Nat.zero_mul, Nat.add_zero, Nat.mod_eq_of_lt hpos, hs] at hjgood
          exact hjgood.elim
        · exact h0
      have hpne : (pos + s) % arr.length ≠ init := by
        have := hjno 1 (le_refl 1) hj1
        simpa using this
      have hgood2 : goodSlot key
          (arr.getD (((pos + s) % arr.length + (j - 1) * s) % arr.length) Slot.empty) := by
        rw [step_mod _ _ _ _ hj1]
        exact hjgood
      have hno2 : ∀ m, 1 ≤ m → m ≤ j - 1 →
          ((pos + s) % arr.length + m * s) % arr.length ≠ init := by
        intro m hm1 hmj
        have := hjno (m + 1) (by omega) (by omega)
        rw [← step_mod _ _ _ _ (by omega : 1 ≤ m + 1)] at this
        simpa using this
      obtain ⟨i, hi⟩ := ih (Nat.mod_lt _ hlen) ⟨j - 1, by omega, hgood2, hno2⟩
      refine ⟨i, ?_⟩
      simp only [if_neg hpne]
      exact hi
    · by_cases hk : k = key
      · exact ⟨pos, by simp [hk]⟩
      · have hj1 : 1 ≤ j := by
          rcases Nat.eq_or_lt_of_le (Nat.zero_le j) with h0 | h0
          · rw [← h0, Nat.zero_mul, Nat.add_zero, Nat.mod_eq_of_lt hpos, hs] at hjgood
            exact absurd hjgood hk
          · exact h0
        have hpne : (pos + s) % arr.length ≠ init := by
          have := hjno 1 (le_refl 1) hj1
          simpa using this
        have hgood2 : goodSlot key
            (arr.getD (((pos + s) % arr.length + (j - 1) * s) % arr.length) Slot.empty) := by
          rw [step_mod _ _ _ _ hj1]
          exact hjgood
        have hno2 : ∀ m, 1 ≤ m → m ≤ j - 1 →
            ((pos + s) % arr.length + m * s) % arr.length ≠ init := by
          intro m hm1 hmj
          have := hjno (m + 1) (by omega) (by omega)
          rw [← step_mod _ _ _ _ (by omega : 1 ≤ m + 1)] at this
          simpa using this
        obtain ⟨i, hi⟩ := ih (Nat.mod_lt _ hlen) ⟨j - 1, by omega, hgood2, hno2⟩
        refine ⟨i, ?_⟩
        simp only [if_neg hk, if_neg hpne]
        exact hi

/-! ### Hash bounds, coverage over a prime capacity, termination -/

theorem hashAux_lt {ts : Nat} (hts : 0 < ts) :
    ∀ (l : List Char) (v a : Nat), v < ts → hashAux ts l v a < ts := by
  intro l
  induction l with
  | nil => intro v a hv; simpa [hashAux] using hv
  | cons c cs ih =>
    intro v a hv
    rw [hashAux]
    exact ih _ _ (Nat.mod_lt _ hts)

theorem hash1_lt {ts : Nat} (hts : 0 < ts) (key : String) : hash1 ts key < ts :=
  hashAux_lt hts key.data 0 31415 hts

theorem hash2_pos (ts : Nat) (key : String) : 1 ≤ hash2 ts key := by
  rw [hash2]
  omega

theorem hash2_le (ts : Nat) (key : String) (hts : 2 ≤ ts) :
    hash2 ts key ≤ ts - 1 := by
  have hmod : (hash1 ts key * 13 + key.length) % (ts - 1) < ts - 1 :=
    Nat.mod_lt _ (by omega)
  rw [hash2]
  omega

theorem probe_positions_inj {ts s : Nat} (hp : Nat.Prime ts) (hs1 : 1 ≤ s)
    (hs2 : s ≤ ts - 1) (init : Nat) :
    ∀ j1 j2, j1 < ts → j2 < ts →
      (init + j1 * s) % ts = (init + j2 * s) % ts → j1 = j2 := by
  intro j1 j2 hj1 hj2 heq
  have hslt : s < ts := by
    have := hp.two_le
    omega
  have hnd : ¬ ts ∣ s := Nat.not_dvd_of_pos_of_lt (by omega) hslt
  have hco : Nat.gcd ts s = 1 := (Nat.Prime.coprime_iff_not_dvd hp).mpr hnd
  have hmeq : j1 * s ≡ j2 * s [MOD ts] := Nat.ModEq.add_left_cancel' init heq
  have hj : j1 ≡ j2 [MOD ts] := Nat.ModEq.cancel_right_of_coprime hco hmeq
  calc j1 = j1 % ts := (Nat.mod_eq_of_lt hj1).symm
    _ = j2 % ts := hj
    _ = j2 := Nat.mod_eq_of_lt hj2

theorem probe_positions_surj {ts s : Nat} (hp : Nat.Prime ts) (hs1 : 1 ≤ s)
    (hs2 : s ≤ ts - 1) (init : Nat) :
    ∀ e, e < ts → ∃ j, j < ts ∧ (init + j * s) % ts = e := by
  intro e he
  have hts : 0 < ts := by
    have := hp.two_le
    omega
  let f : Fin ts → Fin ts := fun j => ⟨(init + j.val * s) % ts, Nat.mod_lt _ hts⟩
  have hinj : Function.Injective f := by
    intro a b hab
    have := probe_positions_inj hp hs1 hs2 init a.val b.val a.isLt b.isLt
      (congrArg Fin.val hab)
    exact Fin.ext this
  have hsurj : Function.Surjective f := Finite.surjective_of_injective hinj
  obtain ⟨j, hj⟩ := hsurj ⟨e, he⟩
  exact ⟨j.val, j.isLt, congrArg Fin.val hj⟩

theorem probe_no_early_return {ts s init : Nat} (hp : Nat.Prime ts) (hs1 : 1 ≤ s)
    (hs2 : s ≤ ts - 1) (hinit : init < ts) :
    ∀ m, 1 ≤ m → m < ts → (init + m * s) % ts ≠ init := by
  intro m hm1 hmts heq
  have h0 : (init + 0 * s) % ts = init := by
    simpa using Nat.mod_eq_of_lt hinit
  have := probe_positions_inj hp hs1 hs2 init m 0 hmts (by omega) (by rw [heq, h0])
  omega

theorem probe_insert_succeeds {arr : List (Slot V)} (key : String)
    (hp : Nat.Prime arr.length)
    (he : ∃ eidx, eidx < arr.length ∧ arr.getD eidx Slot.empty = Slot.empty) :
    ∃ i, probeLoop arr key true (hash2 arr.length key) (hash1 arr.length key)
      arr.length (hash1 arr.length key) = .found i := by
  obtain ⟨eidx, helt, hee⟩ := he
  have hts : 0 < arr.length := by
    have := hp.two_le
    omega
  have hinit : hash1 arr.length key < arr.length := hash1_lt hts key
  have hs1 : 1 ≤ hash2 arr.length key := hash2_pos _ _
  have hs2 : hash2 arr.length key ≤ arr.length - 1 := hash2_le _ _ hp.two_le
  obtain ⟨j, hjlt, hje⟩ := probe_positions_surj hp hs1 hs2 (hash1 arr.length key) eidx helt
  refine probe_finds_good hts hinit ⟨j, hjlt, ?_, ?_⟩
  · rw [hje, hee]
    trivial
  · intro m hm1 hmj
    exact probe_no_early_return hp hs1 hs2 hinit m hm1 (by omega)

theorem hashyProbe_ne_outOfFuel (t : StepTable V) (key : String) (b : Bool)
    (hts : 0 < t.tableSize) : hashyProbe t key b ≠ .outOfFuel := by
  refine probe_ne_outOfFuel ⟨t.tableSize, hts, le_refl _, ?_⟩
  have h1 : (hash1 t.tableSize key + t.tableSize * hash2 t.tableSize key) %
      t.array.length = hash1 t.tableSize key % t.array.length := by
    have : t.array.length = t.tableSize := rfl
    rw [this, Nat.add_mul_mod_self_left]
  rw [h1]
  exact Nat.mod_eq_of_lt (hash1_lt hts key)

/-! ### Table-level invariants -/

theorem hashyProbe_def (t : StepTable V) (key : String) (b : Bool) :
    hashyProbe t key b = probeLoop t.array key b (hash2 t.array.length key)
      (hash1 t.array.length key) t.array.length (hash1 t.array.length key) := rfl

theorem tableSize_pos_of_found {t : StepTable V} {key : String} {b : Bool} {pos : Nat}
    (h : hashyProbe t key b = .found pos) : 0 < t.array.length := by
  by_contra h0
  have hz : t.array.length = 0 := by omega
  rw [hashyProbe_def, hz] at h
  simp [probeLoop] at h

theorem found_pos_lt {t : StepTable V} {key : String} {b : Bool} {pos : Nat}
    (h : hashyProbe t key b = .found pos) : pos < t.array.length := by
  have hts := tableSize_pos_of_found h
  exact probe_found_lt hts (hash1_lt hts key) h

theorem getItem_of_found {t : StepTable V} {key : String} {i : Nat} {w : V}
    (h : hashyProbe t key false = .found i)
    (hocc : t.array.getD i Slot.empty = Slot.occupied key w) :
    getItem t key = .ok w := by
  simp only [getItem, h, hocc]

theorem getItem_ok_elim {t : StepTable V} {key : String} {v : V}
    (h : getItem t key = .ok v) :
    ∃ i, hashyProbe t key false = .found i ∧
      t.array.getD i Slot.empty = Slot.occupied key v := by
  rcases hp : hashyProbe t key false with i | _ | _ | _ <;>
    simp only [getItem, hp] at h
  · have hp2 := hp
    rw [hashyProbe_def] at hp2
    obtain ⟨w, hw⟩ := probe_found_slot_lookup hp2
    simp only [hw] at h
    have hv : w = v := by simpa using h
    exact ⟨i, rfl, by rw [hw, hv]⟩
  · exact absurd h (by simp)
  · exact absurd h (by simp)
  · exact absurd h (by simp)

/-- Under `ArrInv`, each key occupies at most one slot. -/
theorem arrInv_unique {arr : List (Slot V)} (hinv : ArrInv arr) {i j : Nat}
    {k : String} {w w2 : V} (hi : arr.getD i Slot.empty = Slot.occupied k w)
    (hj : arr.getD j Slot.empty = Slot.occupied k w2) : i = j := by
  have h1 := hinv i k w hi
  have h2 := hinv j k w2 hj
  rw [h1] at h2
  cases h2
  rfl

theorem uniqueKeys_of_arrInv {arr : List (Slot V)} (hinv : ArrInv arr) :
    UniqueKeys arr := fun _ _ _ _ _ hi hj => arrInv_unique hinv hi hj

theorem mem_keys_iff {arr : List (Slot V)} {k : String} :
    k ∈ (slotPairs arr).map Prod.fst ↔
      ∃ i w, arr.getD i Slot.empty = Slot.occupied k w := by
  rw [List.mem_map]
  constructor
  · rintro ⟨⟨k2, v2⟩, hmem, rfl⟩
    obtain ⟨i, hi⟩ := mem_slotPairs.mp hmem
    exact ⟨i, v2, hi⟩
  · rintro ⟨i, w, hi⟩
    exact ⟨(k, w), mem_slotPairs.mpr ⟨i, hi⟩, rfl⟩

theorem keys_nodup_of_uniqueKeys {arr : List (Slot V)} (hu : UniqueKeys arr) :
    ((slotPairs arr).map Prod.fst).Nodup := by
  induction arr with
  | nil => simp [slotPairs]
  | cons s rest ih =>
    have hu2 : UniqueKeys rest := by
      intro i j k w w2 hi hj
      have := hu (i + 1) (j + 1) k w w2 (by simpa [List.getD_cons_succ] using hi)
        (by simpa [List.getD_cons_succ] using hj)
      omega
    cases s with
    | empty => simpa [slotPairs, List.filterMap_cons] using ih hu2
    | tombstone => simpa [slotPairs, List.filterMap_cons] using ih hu2
    | occupied k0 v0 =>
      have : slotPairs (Slot.occupied k0 v0 :: rest) = (k0, v0) :: slotPairs rest := by
        simp [slotPairs, List.filterMap_cons]
      rw [this, List.map_cons, List.nodup_cons]
      refine ⟨?_, ih hu2⟩
      intro hmem
      obtain ⟨i, w, hi⟩ := mem_keys_iff.mp hmem
      have h0 : (Slot.occupied k0 v0 :: rest).getD 0 Slot.empty = Slot.occupied k0 v0 := by
        simp
      have hi2 : (Slot.occupied k0 v0 :: rest).getD (i + 1) Slot.empty =
          Slot.occupied k0 w := by
        simpa [List.getD_cons_succ] using hi
      have := hu 0 (i + 1) k0 v0 w h0 hi2
      omega

/-! ### Analysis of the write performed by a successful probe-insert -/

theorem write_spec {t : StepTable V} {key : String} {data : V} {pos : Nat}
    (hretr : ArrInv t.array)
    (hfound : hashyProbe t key true = .found pos) :
    ArrInv (t.array.set pos (Slot.occupied key data)) ∧
    (∀ (t1 : StepTable V), t1.array = t.array.set pos (Slot.occupied key data) →
      getItem t1 key = .ok data) ∧
    (∀ (t1 : StepTable V), t1.array = t.array.set pos (Slot.occupied key data) →
      ∀ k2 v2, k2 ≠ key → getItem t k2 = .ok v2 → getItem t1 k2 = .ok v2) ∧
    (∀ k2 w2, (∃ i, (t.array.set pos (Slot.occupied key data)).getD i Slot.empty =
        Slot.occupied k2 w2) →
      (∃ i, t.array.getD i Slot.empty = Slot.occupied k2 w2) ∨ k2 = key) ∧
    (noTombArr t.array → noTombArr (t.array.set pos (Slot.occupied key data))) ∧
    ((t.array.getD pos Slot.empty = Slot.empty ∧
        occCount (t.array.set pos (Slot.occupied key data)) = occCount t.array + 1 ∧
        ¬ hasKey t key) ∨
     (∃ w0, t.array.getD pos Slot.empty = Slot.occupied key w0 ∧
        occCount (t.array.set pos (Slot.occupied key data)) = occCount t.array)) := by
  have hts : 0 < t.array.length := tableSize_pos_of_found hfound
  have hpos : pos < t.array.length := found_pos_lt hfound
  have hfound2 := hfound
  rw [hashyProbe_def] at hfound2
  have hgood : goodSlot key (t.array.getD pos Slot.empty) :=
    probe_found_slot_insert hfound2
  have hlook : probeLoop (t.array.set pos (Slot.occupied key data)) key false
      (hash2 t.array.length key) (hash1 t.array.length key) t.array.length
      (hash1 t.array.length key) = .found pos :=
    probe_set_found hts (hash1_lt hts key) hfound2
  have hlen2 : (t.array.set pos (Slot.occupied key data)).length = t.array.length :=
    List.length_set t.array pos _
  have hget2 : (t.array.set pos (Slot.occupied key data)).getD pos Slot.empty =
      Slot.occupied key data := getD_set_self _ _ _ _ hpos
  -- no other slot can hold `key`
  have honlypos : ∀ i w2, i ≠ pos →
      t.array.getD i Slot.empty = Slot.occupied key w2 → False := by
    intro i w2 hip hi
    have h1 := hretr i key w2 hi
    have h2 := probe_true_of_false h1
    rw [hfound2] at h2
    cases h2
    exact hip rfl
  refine ⟨?_, ?_, ?_, ?_, ?_, ?_⟩
  · -- retrievability of the written array
    intro i k2 w hi
    rw [hlen2]
    by_cases hip : i = pos
    · subst hip
      rw [hget2] at hi
      rw [Slot.occupied.injEq] at hi
      rw [← hi.1]
      exact hlook
    · rw [getD_set_ne _ _ _ _ _ (Ne.symm hip)] at hi
      by_cases hk2 : k2 = key
      · subst hk2
        exact absurd hi (fun hcontra => honlypos i w hip hcontra)
      · obtain ⟨hres, _⟩ := probe_lookup_set_other (V := V) (v := data)
          (fun hcontra => hk2 hcontra.symm) hgood (hretr i k2 w hi)
        exact hres
  · intro t1 harr
    refine getItem_of_found ?_ (by rw [harr]; exact hget2)
    rw [hashyProbe_def, harr, hlen2]
    exact hlook
  · intro t1 harr k2 v2 hk2 hget
    obtain ⟨j, hpj, hsj⟩ := getItem_ok_elim hget
    rw [hashyProbe_def] at hpj
    obtain ⟨hres, hji⟩ := probe_lookup_set_other (V := V) (v := data)
      (fun hcontra => hk2 hcontra.symm) hgood hpj
    refine getItem_of_found (i := j) ?_ ?_
    · rw [hashyProbe_def, harr, hlen2]
      exact hres
    · rw [harr, getD_set_ne _ _ _ _ _ (Ne.symm hji)]
      exact hsj
  · rintro k2 w2 ⟨i, hi⟩
    by_cases hip : i = pos
    · subst hip
      rw [hget2] at hi
      rw [Slot.occupied.injEq] at hi
      exact Or.inr hi.1.symm
    · rw [getD_set_ne _ _ _ _ _ (Ne.symm hip)] at hi
      exact Or.inl ⟨i, hi⟩
  · intro hnt i
    by_cases hip : i = pos
    · subst hip
      rw [hget2]
      simp
    · rw [getD_set_ne _ _ _ _ _ (Ne.symm hip)]
      exact hnt i
  · rcases hs : t.array.getD pos Slot.empty with _ | _ | ⟨k0, w0⟩
    · refine Or.inl ⟨rfl, occCount_set_of_empty _ _ _ _ hpos hs, ?_⟩
      rintro ⟨j, w2, hj⟩
      by_cases hjp : j = pos
      · subst hjp
        rw [hs] at hj
        exact absurd hj (by simp)
      · exact honlypos j w2 hjp hj
    · rw [hs] at hgood
      exact hgood.elim
    · rw [hs] at hgood
      have hk0 : k0 = key := hgood
      subst hk0
      exact Or.inr ⟨w0, rfl, occCount_set_of_occ _ _ _ _ _ _ hs⟩

/-! ### General correctness of `__setitem__` (any ladder, any fuel) -/

theorem slotPairs_cons_occ (k : String) (v : V) (rest : List (Slot V)) :
    slotPairs (Slot.occupied k v :: rest) = (k, v) :: slotPairs rest := by
  simp [slotPairs, List.filterMap_cons]

theorem slotPairs_cons_empty (rest : List (Slot V)) :
    slotPairs (Slot.empty :: rest) = slotPairs rest := by
  simp [slotPairs, List.filterMap_cons]

theorem slotPairs_cons_tomb (rest : List (Slot V)) :
    slotPairs (Slot.tombstone :: rest) = slotPairs rest := by
  simp [slotPairs, List.filterMap_cons]

theorem reinsert_general {set1 : StepTable V → String → V → SetResult V}
    (Hset1 : ∀ t key data t2, Wf t → set1 t key data = .ok t2 → SetSpec t key data t2) :
    ∀ (l : List (Slot V)) (t t2 : StepTable V),
      Wf t →
      ((slotPairs l).map Prod.fst).Nodup →
      (∀ k2, k2 ∈ (slotPairs l).map Prod.fst → ¬ hasKey t k2) →
      reinsertList set1 t l = .ok t2 →
      Wf t2 ∧ t2.sizes = t.sizes ∧ t.sizeIndex ≤ t2.sizeIndex ∧
      (∀ k2 v2, (k2, v2) ∈ slotPairs l → getItem t2 k2 = .ok v2) ∧
      (∀ k2 v2, getItem t k2 = .ok v2 → k2 ∉ (slotPairs l).map Prod.fst →
        getItem t2 k2 = .ok v2) ∧
      (∀ k2, hasKey t2 k2 → hasKey t k2 ∨ k2 ∈ (slotPairs l).map Prod.fst) ∧
      (noTomb t → noTomb t2) := by
  intro l
  induction l with
  | nil =>
    intro t t2 hwf _ _ hrun
    rw [reinsertList] at hrun
    cases hrun
    refine ⟨hwf, rfl, le_refl _, ?_, ?_, ?_, fun h => h⟩
    · intro k2 v2 hmem
      simp [slotPairs] at hmem
    · intro k2 v2 hget _
      exact hget
    · intro k2 hk
      exact Or.inl hk
  | cons s rest ih =>
    intro t t2 hwf hnodup hfresh hrun
    cases s with
    | empty =>
      rw [reinsertList] at hrun
      rw [slotPairs_cons_empty] at hnodup hfresh ⊢
      exact ih t t2 hwf hnodup hfresh hrun
    | tombstone =>
      rw [reinsertList] at hrun
      rw [slotPairs_cons_tomb] at hnodup hfresh ⊢
      exact ih t t2 hwf hnodup hfresh hrun
    | occupied k v =>
      rw [reinsertList] at hrun
      rw [slotPairs_cons_occ] at hnodup hfresh ⊢
      rcases hs1 : set1 t k v with t1 | ⟨e, t1⟩ <;> simp only [hs1] at hrun
      swap
      · exact absurd hrun (by simp)
      obtain ⟨hwf1, hsz1, hsi1, hget1, hpres1, htrans1, hnt1, -, -⟩ :=
        Hset1 t k v t1 hwf hs1
      have hknotin : k ∉ (slotPairs rest).map Prod.fst := by
        rw [List.map_cons, List.nodup_cons] at hnodup
        simpa using hnodup.1
      have hnodup2 : ((slotPairs rest).map Prod.fst).Nodup := by
        rw [List.map_cons, List.nodup_cons] at hnodup
        exact hnodup.2
      have hfresh2 : ∀ k2, k2 ∈ (slotPairs rest).map Prod.fst → ¬ hasKey t1 k2 := by
        intro k2 hmem hk2
        rcases htrans1 k2 hk2 with hk | hk
        · exact hfresh k2 (by simp [hmem]) hk
        · subst hk
          exact hknotin hmem
      obtain ⟨hwf2, hsz2, hsi2, hitem2, hpres2, htrans2, hnt2⟩ :=
        ih t1 t2 hwf1 hnodup2 hfresh2 hrun
      refine ⟨hwf2, hsz2.trans hsz1, le_trans hsi1 hsi2, ?_, ?_, ?_, fun h => hnt2 (hnt1 h)⟩
      · intro k2 v2 hmem
        rcases List.mem_cons.mp hmem with heq | hmem2
        · rw [Prod.mk.injEq] at heq
          rw [heq.1, heq.2]
          exact hpres2 k v hget1 hknotin
        · exact hitem2 k2 v2 hmem2
      · intro k2 v2 hget hnotin
        have hk2ne : k2 ≠ k := by
          intro hcontra
          exact hnotin (by simp [hcontra])
        have hnotin2 : k2 ∉ (slotPairs rest).map Prod.fst := by
          intro hcontra
          exact hnotin (by simp [hcontra])
        exact hpres2 k2 v2 (hpres1 k2 v2 hk2ne hget) hnotin2
      · intro k2 hk2
        rcases htrans2 k2 hk2 with hk | hk
        · rcases htrans1 k2 hk with hkt | hkt
          · exact Or.inl hkt
          · exact Or.inr (by simp [hkt])
        · exact Or.inr (by simp [hk])

theorem hasKey_initTable (sizes : List Nat) (k : String) :
    ¬ hasKey (initTable sizes : StepTable V) k := by
  rintro ⟨i, w, hi⟩
  rw [initTable] at hi
  simp only at hi
  rw [getD_replicate_self] at hi
  exact absurd hi (by simp)

theorem wf_freshTable (sizes : List Nat) (si : Nat) (hsi : si < sizes.length) :
    Wf ({ sizes := sizes
          sizeIndex := si
          array := List.replicate (sizes.getD si 0) Slot.empty
          count := 0 } : StepTable V) := by
  refine ⟨by simp, by simpa using hsi, ?_, ?_, ?_⟩
  · simp [occCount_replicate_empty]
  · simp
  · intro i k2 w hi
    simp only at hi
    rw [getD_replicate_self] at hi
    exact absurd hi (by simp)

theorem hasKey_freshTable (sizes : List Nat) (si : Nat) (k : String) :
    ¬ hasKey ({ sizes := sizes
                sizeIndex := si
                array := List.replicate (sizes.getD si 0) Slot.empty
                count := 0 } : StepTable V) k := by
  rintro ⟨i, w, hi⟩
  simp only at hi
  rw [getD_replicate_self] at hi
  exact absurd hi (by simp)

theorem setItemF_ok_spec (fuel : Nat) :
    ∀ (t : StepTable V) (key : String) (data : V) (t2 : StepTable V),
      Wf t → setItemF fuel t key data = .ok t2 → SetSpec t key data t2 := by
  induction fuel with
  | zero =>
    intro t key data t2 _ hset
    rw [setItemF] at hset
    exact absurd hset (by simp)
  | succ f ih =>
    intro t key data t2 hwf hset
    rw [setItemF] at hset
    rcases hp : hashyProbe t key true with pos | _ | _ | _ <;> simp only [hp] at hset
    case keyError => exact absurd hset (by simp)
    case fullError => exact absurd hset (by simp)
    case outOfFuel => exact absurd hset (by simp)
    case found =>
      have hposlt : pos < t.array.length := found_pos_lt hp
      obtain ⟨hinv1, hget1, hpres1, htrans1, hnt1, hcount⟩ :=
        @write_spec V t key data pos hwf.retr hp
      rcases hcount with ⟨hse, hocc1, hnokey⟩ | ⟨w0, hse, hocc1⟩
      · -- the probed slot was Empty: the count is incremented
        simp only [hse, Slot.isNone, StepTable.tableSize, List.length_set,
          if_true, if_false] at hset
        by_cases hthr : 3 * (t.count + 1) > 2 * (t.array.length : Int)
        · -- load factor breached: a rehash runs
          rw [if_pos hthr] at hset
          rw [rehashWith] at hset
          simp only at hset
          by_cases hsige : t.sizeIndex + 1 ≥ t.sizes.length
          · rw [if_pos hsige] at hset
            exact absurd hset (by simp)
          · rw [if_neg hsige] at hset
            have hsi2 : t.sizeIndex + 1 < t.sizes.length := by omega
            have hnodup2 : ((slotPairs (t.array.set pos
                (Slot.occupied key data))).map Prod.fst).Nodup :=
              keys_nodup_of_uniqueKeys (uniqueKeys_of_arrInv hinv1)
            obtain ⟨hwf2, hsz2, hsi2b, hitem2, hpres2, htrans2, hnt2⟩ :=
              reinsert_general
                (fun t3 k3 d3 t4 hw hs => ih t3 k3 d3 t4 hw hs)
                (t.array.set pos (Slot.occupied key data))
                { sizes := t.sizes, sizeIndex := t.sizeIndex + 1,
                  array := List.replicate (t.sizes.getD (t.sizeIndex + 1) 0) Slot.empty,
                  count := 0 } t2
                (wf_freshTable t.sizes (t.sizeIndex + 1) hsi2) hnodup2
                (fun k2 _ => hasKey_freshTable t.sizes (t.sizeIndex + 1) k2) hset
            have hmempos : (key, data) ∈ slotPairs (t.array.set pos (Slot.occupied key data)) :=
              mem_slotPairs.mpr ⟨pos, getD_set_self _ _ _ _ hposlt⟩
            refine ⟨hwf2, by rw [hsz2], ?_, ?_, ?_, ?_, ?_,
              fun hk => absurd hk hnokey,
              fun _ => ⟨fun hle => absurd hle (not_le.mpr hthr), fun _ => ?_⟩⟩
            · have h1 : t.sizeIndex + 1 ≤ t2.sizeIndex := hsi2b
              omega
            · exact hitem2 key data hmempos
            · intro k2 v2 hk2 hget
              obtain ⟨j, hpj, hsj⟩ := getItem_ok_elim hget
              have hjpos : j ≠ pos := by
                intro hcontra
                rw [hcontra, hse] at hsj
                exact absurd hsj (by simp)
              refine hitem2 k2 v2 (mem_slotPairs.mpr ⟨j, ?_⟩)
              rw [getD_set_ne _ _ _ _ _ (Ne.symm hjpos)]
              exact hsj
            · intro k2 hk2
              rcases htrans2 k2 hk2 with hk | hk
              · obtain ⟨i, w, hi⟩ := hk
                simp only at hi
                rw [getD_replicate_self] at hi
                exact absurd hi (by simp)
              · obtain ⟨i, w, hi⟩ := mem_keys_iff.mp hk
                rcases htrans1 k2 w ⟨i, hi⟩ with ⟨i2, hi2⟩ | hkk
                · exact Or.inl ⟨i2, w, hi2⟩
                · exact Or.inr hkk
            · intro _
              refine hnt2 ?_
              intro i
              simp only
              rw [getD_replicate_self]
              simp
            · have h1 : t.sizeIndex + 1 ≤ t2.sizeIndex := hsi2b
              omega
        · rw [if_neg hthr] at hset
          cases hset
          refine ⟨?_, rfl, le_refl _, hget1 _ rfl, hpres1 _ rfl,
            fun k2 hk => ?_, fun hnt i => hnt1 hnt i,
            fun hk => absurd hk hnokey,
            fun _ => ⟨fun _ => ⟨rfl, rfl, List.length_set _ _ _⟩,
              fun hbr => absurd hbr hthr⟩⟩
          · refine ⟨?_, hwf.idxLt, ?_, ?_, hinv1⟩
            · simpa [List.length_set] using hwf.lenEq
            · simp only
              rw [hocc1, hwf.countEq]
              push_cast
              ring
            · simp only [List.length_set]
              omega
          · obtain ⟨i, w, hi⟩ := hk
            rcases htrans1 k2 w ⟨i, hi⟩ with ⟨i2, hi2⟩ | hkk
            · exact Or.inl ⟨i2, w, hi2⟩
            · exact Or.inr hkk
      · -- the probed slot already held `key`: count unchanged and the load
        -- factor cannot newly breach (it already satisfied the invariant)
        simp only [hse, Slot.isNone, StepTable.tableSize, List.length_set,
          if_true, if_false, Bool.false_eq_true] at hset
        have hthr : ¬ (3 * t.count > 2 * (t.array.length : Int)) := by
          have := hwf.loadOK
          omega
        rw [if_neg hthr] at hset
        cases hset
        refine ⟨?_, rfl, le_refl _, hget1 _ rfl, hpres1 _ rfl,
          fun k2 hk => ?_, fun hnt i => hnt1 hnt i,
          fun _ => ⟨rfl, rfl, List.length_set _ _ _⟩,
          fun hnk => absurd ⟨pos, w0, hse⟩ hnk⟩
        · refine ⟨?_, hwf.idxLt, ?_, ?_, hinv1⟩
          · simpa [List.length_set] using hwf.lenEq
          · simp only
            rw [hocc1, hwf.countEq]
          · simp only [List.length_set]
            have := hwf.loadOK
            omega
        · obtain ⟨i, w, hi⟩ := hk
          rcases htrans1 k2 w ⟨i, hi⟩ with ⟨i2, hi2⟩ | hkk
          · exact Or.inl ⟨i2, w, hi2⟩
          · exact Or.inr hkk

theorem setItem_ok_spec {t t2 : StepTable V} {key : String} {data : V}
    (hwf : Wf t) (hset : setItem t key data = .ok t2) : SetSpec t key data t2 :=
  setItemF_ok_spec (t.sizes.length + 1) t key data t2 hwf hset

theorem delItem_ok_spec {t t2 : StepTable V} {key : String}
    (hwf : Wf t) (hdel : delItem t key = .ok t2) :
    Wf t2 ∧ t2.sizes = t.sizes ∧ t2.sizeIndex = t.sizeIndex ∧
    t2.array.length = t.array.length ∧ t2.count = t.count - 1 ∧ hasKey t key := by
  rw [delItem] at hdel
  rcases hp : hashyProbe t key false with pos | _ | _ | _ <;> simp only [hp] at hdel
  case keyError => exact absurd hdel (by simp)
  case fullError => exact absurd hdel (by simp)
  case outOfFuel => exact absurd hdel (by simp)
  case found =>
    have hp2 := hp
    rw [hashyProbe_def] at hp2
    obtain ⟨w, hw⟩ := probe_found_slot_lookup hp2
    simp only [hw] at hdel
    cases hdel
    have hposlt : pos < t.array.length := found_pos_lt hp
    have hcnt := occCount_set_tomb t.array pos key w hw
    refine ⟨⟨?_, hwf.idxLt, ?_, ?_, ?_⟩, rfl, rfl, List.length_set _ _ _, rfl,
      ⟨pos, w, hw⟩⟩
    · simpa [List.length_set] using hwf.lenEq
    · simp only
      rw [hwf.countEq]
      omega
    · simp only [List.length_set]
      have := hwf.loadOK
      omega
    · intro i k2 w2 hi
      simp only [List.length_set] at hi ⊢
      have hip : i ≠ pos := by
        intro hcontra
        rw [hcontra, getD_set_self _ _ _ _ hposlt] at hi
        exact absurd hi (by simp)
      rw [getD_set_ne _ _ _ _ _ (Ne.symm hip)] at hi
      have hk2 : key ≠ k2 := by
        intro hcontra
        exact hip (arrInv_unique hwf.retr hi (hcontra ▸ hw))
      obtain ⟨hres, _⟩ := probe_lookup_tomb_other hk2 hw (hwf.retr i k2 w2 hi)
      exact hres

theorem wf_initTable (sizes : List Nat) (h : sizes ≠ []) :
    Wf (initTable sizes : StepTable V) :=
  wf_freshTable sizes 0 (List.length_pos.mpr h)

theorem reachable_wf {sizes : List Nat} {t : StepTable V}
    (h : Reachable sizes t) : Wf t ∧ t.sizes = sizes := by
  induction h with
  | init hne => exact ⟨wf_initTable _ hne, rfl⟩
  | set k v hr hset ih =>
    obtain ⟨hwf, hsz⟩ := ih
    obtain ⟨hwf2, hsz2, -⟩ := setItem_ok_spec hwf hset
    exact ⟨hwf2, hsz2.trans hsz⟩
  | del k hr hdel ih =>
    obtain ⟨hwf, hsz⟩ := ih
    obtain ⟨hwf2, hsz2, -⟩ := delItem_ok_spec hwf hdel
    exact ⟨hwf2, hsz2.trans hsz⟩

theorem occCount_lt_of_empty {arr : List (Slot V)}
    (h : ∃ i, i < arr.length ∧ arr.getD i Slot.empty = Slot.empty) :
    occCount arr < arr.length := by
  induction arr with
  | nil =>
    obtain ⟨i, hi, _⟩ := h
    simp at hi
  | cons s rest ih =>
    obtain ⟨i, hi, he⟩ := h
    cases i with
    | zero =>
      rw [List.getD_cons_zero] at he
      subst he
      rw [occCount_cons_empty]
      have := occCount_le_length rest
      simp only [List.length_cons]
      omega
    | succ j =>
      rw [List.getD_cons_succ] at he
      have hj : j < rest.length := by simpa using hi
      have hrest := ih ⟨j, hj, he⟩
      cases s with
      | empty =>
        rw [occCount_cons_empty]
        simp only [List.length_cons]
        omega
      | tombstone =>
        rw [occCount_cons_tomb]
        simp only [List.length_cons]
        omega
      | occupied k v =>
        rw [occCount_cons_occ]
        simp only [List.length_cons]
        omega

theorem hashyProbe_full {t : StepTable V} {key : String}
    (hts : 0 < t.array.length)
    (hnoempty : ∀ i, i < t.array.length → t.array.getD i Slot.empty ≠ Slot.empty)
    (hnokey : ¬ hasKey t key) :
    hashyProbe t key true = .fullError := by
  rcases hres : hashyProbe t key true with pos | _ | _ | _
  · have hp2 := hres
    rw [hashyProbe_def] at hp2
    have hgood := probe_found_slot_insert hp2
    have hposlt : pos < t.array.length := found_pos_lt hres
    rcases hs : t.array.getD pos Slot.empty with _ | _ | ⟨k, w⟩
    · exact absurd hs (hnoempty pos hposlt)
    · rw [hs] at hgood
      exact hgood.elim
    · rw [hs] at hgood
      have hk : k = key := hgood
      exact absurd ⟨pos, w, hk ▸ hs⟩ hnokey
  · have := @probe_insert_ne_keyError V t.array key (hash2 t.array.length key)
      (hash1 t.array.length key) t.array.length (hash1 t.array.length key)
    rw [hashyProbe_def] at hres
    exact absurd hres this
  · rfl
  · exact absurd hres (hashyProbe_ne_outOfFuel t key true hts)

/-! ### Exact-result lemmas for `__setitem__` over a prime growth ladder -/

theorem prime_gap_bound {p q : Nat} (hp : Nat.Prime p) (hq : Nat.Prime q)
    (hlt : p < q) : 2 * p + 3 ≤ 2 * q ∨ p = 2 := by
  by_cases h2 : p = 2
  · exact Or.inr h2
  · left
    have hop : Odd p := hp.odd_of_ne_two h2
    have hq2 : q ≠ 2 := by
      have := hp.two_le
      omega
    have hoq : Odd q := hq.odd_of_ne_two hq2
    obtain ⟨a, ha⟩ := hop
    obtain ⟨b, hb⟩ := hoq
    omega

theorem setItem_present_ok {t : StepTable V} {key : String} (data : V)
    (hwf : Wf t) (hk : hasKey t key) :
    ∃ t2, setItem t key data = .ok t2 ∧ t2.sizeIndex = t.sizeIndex ∧
      t2.array.length = t.array.length ∧ t2.count = t.count ∧ t2.sizes = t.sizes := by
  obtain ⟨j, w, hj⟩ := hk
  have hpfalse := hwf.retr j key w hj
  have hptrue : hashyProbe t key true = .found j := by
    rw [hashyProbe_def]
    exact probe_true_of_false hpfalse
  have hthr : ¬ (3 * t.count > 2 * ((t.array.set j (Slot.occupied key data)).length : Int)) := by
    rw [List.length_set]
    have := hwf.loadOK
    omega
  refine ⟨{ t with array := t.array.set j (Slot.occupied key data), count := t.count },
    ?_, rfl, List.length_set _ _ _, rfl, rfl⟩
  rw [setItem, setItemF]
  simp only [hptrue, hj, Slot.isNone, Bool.false_eq_true, if_false,
    StepTable.tableSize]
  rw [if_neg hthr]

theorem setItem_full_err {t : StepTable V} {key : String} (data : V)
    (hts : 0 < t.array.length)
    (hnoempty : ∀ i, i < t.array.length → t.array.getD i Slot.empty ≠ Slot.empty)
    (hnokey : ¬ hasKey t key) :
    setItem t key data = .err .fullError t := by
  rw [setItem, setItemF]
  simp only [hashyProbe_full hts hnoempty hnokey]

theorem reinsert_small (f : Nat) (hf : 1 ≤ f) :
    ∀ (l : List (Slot V)) (t : StepTable V),
      Wf t → Nat.Prime t.array.length → noTomb t →
      ((slotPairs l).map Prod.fst).Nodup →
      (∀ k2, k2 ∈ (slotPairs l).map Prod.fst → ¬ hasKey t k2) →
      occCount t.array + occCount l ≤ t.array.length →
      3 * (t.count + (occCount l : Int)) ≤ 2 * (t.array.length : Int) →
      ∃ t2, reinsertList (fun t3 k3 v3 => setItemF f t3 k3 v3) t l = .ok t2 ∧
        t2.count = t.count + (occCount l : Int) ∧
        t2.sizeIndex = t.sizeIndex ∧ t2.array.length = t.array.length ∧
        t2.sizes = t.sizes ∧ Wf t2 ∧ noTomb t2 := by
  obtain ⟨g, rfl⟩ : ∃ g, f = g + 1 := ⟨f - 1, by omega⟩
  intro l
  induction l with
  | nil =>
    intro t hwf _ hnt _ _ _ _
    exact ⟨t, by rw [reinsertList], by simp [occCount_nil], rfl, rfl, rfl, hwf, hnt⟩
  | cons s rest ih =>
    intro t hwf hprime hnt hnodup hfresh hroom hthr
    cases s with
    | empty =>
      rw [slotPairs_cons_empty] at hnodup hfresh
      rw [occCount_cons_empty] at hroom hthr
      obtain ⟨t2, hrun, hrest⟩ := ih t hwf hprime hnt hnodup hfresh hroom hthr
      exact ⟨t2, by rw [reinsertList]; exact hrun, hrest⟩
    | tombstone =>
      rw [slotPairs_cons_tomb] at hnodup hfresh
      rw [occCount_cons_tomb] at hroom hthr
      obtain ⟨t2, hrun, hrest⟩ := ih t hwf hprime hnt hnodup hfresh hroom hthr
      exact ⟨t2, by rw [reinsertList]; exact hrun, hrest⟩
    | occupied k v =>
      rw [slotPairs_cons_occ] at hnodup hfresh
      rw [occCount_cons_occ] at hroom hthr
      have hkfresh : ¬ hasKey t k := hfresh k (by simp)
      have hempty : ∃ e, e < t.array.length ∧ t.array.getD e Slot.empty = Slot.empty := by
        refine exists_empty_slot hnt ?_
        have := occCount_le_length t.array
        omega
      obtain ⟨pos, hppos⟩ := probe_insert_succeeds k hprime hempty
      have hptrue : hashyProbe t k true = .found pos := by
        rw [hashyProbe_def]
        exact hppos
      have hgood := probe_found_slot_insert hppos
      have hse : t.array.getD pos Slot.empty = Slot.empty := by
        rcases hs : t.array.getD pos Slot.empty with _ | _ | ⟨k0, w0⟩
        · rfl
        · rw [hs] at hgood
          exact hgood.elim
        · rw [hs] at hgood
          have hk0 : k0 = k := hgood
          exact absurd ⟨pos, w0, hk0 ▸ hs⟩ hkfresh
      have hthr1 : ¬ (3 * (t.count + 1) >
          2 * ((t.array.set pos (Slot.occupied k v)).length : Int)) := by
        rw [List.length_set]
        omega
      have heq : setItemF (g + 1) t k v = .ok
          { t with array := t.array.set pos (Slot.occupied k v),
                   count := t.count + 1 } := by
        rw [setItemF]
        simp only [hptrue, hse, Slot.isNone, if_true, StepTable.tableSize]
        rw [if_neg hthr1]
      obtain ⟨hinv1, hget1, hpres1, htrans1, hnt1, hcount⟩ :=
        @write_spec V t k v pos hwf.retr hptrue
      have hocc1 : occCount (t.array.set pos (Slot.occupied k v)) =
          occCount t.array + 1 := by
        rcases hcount with ⟨_, h, _⟩ | ⟨w0, hw0, _⟩
        · exact h
        · rw [hse] at hw0
          exact absurd hw0 (by simp)
      have hwf1 : Wf { t with array := t.array.set pos (Slot.occupied k v),
                              count := t.count + 1 } := by
        refine ⟨?_, hwf.idxLt, ?_, ?_, hinv1⟩
        · simpa [List.length_set] using hwf.lenEq
        · simp only
          rw [hocc1, hwf.countEq]
          push_cast
          ring
        · simp only [List.length_set]
          omega
      have hnt1b : noTomb { t with array := t.array.set pos (Slot.occupied k v),
                                   count := t.count + 1 } := by
        intro i
        exact hnt1 hnt i
      have hfresh1 : ∀ k2, k2 ∈ (slotPairs rest).map Prod.fst →
          ¬ hasKey { t with array := t.array.set pos (Slot.occupied k v),
                            count := t.count + 1 } k2 := by
        rintro k2 hmem ⟨i, w, hi⟩
        rcases htrans1 k2 w ⟨i, hi⟩ with ⟨i2, hi2⟩ | hkk
        · exact hfresh k2 (by simp [hmem]) ⟨i2, w, hi2⟩
        · subst hkk
          rw [List.map_cons, List.nodup_cons] at hnodup
          exact hnodup.1 hmem
      have hroom1 : occCount (t.array.set pos (Slot.occupied k v)) + occCount rest ≤
          (t.array.set pos (Slot.occupied k v)).length := by
        rw [hocc1, List.length_set]
        omega
      have hthr2 : 3 * ((t.count + 1) + (occCount rest : Int)) ≤
          2 * (((t.array.set pos (Slot.occupied k v)).length : Int)) := by
        rw [List.length_set]
        push_cast at hthr ⊢
        omega
      obtain ⟨t2, hrun, hcnt2, hsi2, hlen2, hsz2, hwf2, hnt2⟩ :=
        ih { t with array := t.array.set pos (Slot.occupied k v),
                    count := t.count + 1 }
          hwf1 (by simpa [List.length_set] using hprime) hnt1b hnodup.of_cons
          hfresh1 hroom1 hthr2
      refine ⟨t2, ?_, ?_, hsi2, by simpa [List.length_set] using hlen2, hsz2,
        hwf2, hnt2⟩
      · rw [reinsertList]
        simp only [heq]
        exact hrun
      · have hcnt2b : t2.count = (t.count + 1) + (occCount rest : Int) := hcnt2
        rw [hcnt2b, occCount_cons_occ]
        push_cast
        omega

theorem setItem_fresh_noBreach_ok {t : StepTable V} {key : String} (data : V)
    (hprime : Nat.Prime t.array.length)
    (hfresh : ¬ hasKey t key)
    (hempty : ∃ i, i < t.array.length ∧ t.array.getD i Slot.empty = Slot.empty)
    (hthr : 3 * (t.count + 1) ≤ 2 * (t.array.length : Int)) :
    ∃ pos, setItem t key data = .ok
      { t with array := t.array.set pos (Slot.occupied key data),
               count := t.count + 1 } := by
  obtain ⟨pos, hppos⟩ := probe_insert_succeeds key hprime hempty
  have hptrue : hashyProbe t key true = .found pos := by
    rw [hashyProbe_def]
    exact hppos
  have hgood := probe_found_slot_insert hppos
  have hse : t.array.getD pos Slot.empty = Slot.empty := by
    rcases hs : t.array.getD pos Slot.empty with _ | _ | ⟨k0, w0⟩
    · rfl
    · rw [hs] at hgood
      exact hgood.elim
    · rw [hs] at hgood
      have hk0 : k0 = key := hgood
      exact absurd ⟨pos, w0, hk0 ▸ hs⟩ hfresh
  refine ⟨pos, ?_⟩
  rw [setItem, setItemF]
  simp only [hptrue, hse, Slot.isNone, if_true, StepTable.tableSize]
  rw [if_neg (by rw [List.length_set]; omega)]

theorem setItem_fresh_breach_ok {t : StepTable V} {key : String} (data : V)
    (hwf : Wf t) (hprime : Nat.Prime t.array.length)
    (hprime2 : Nat.Prime (t.sizes.getD (t.sizeIndex + 1) 0))
    (hgrow : t.array.length < t.sizes.getD (t.sizeIndex + 1) 0)
    (hfresh : ¬ hasKey t key)
    (hempty : ∃ i, i < t.array.length ∧ t.array.getD i Slot.empty = Slot.empty)
    (hbr : 3 * (t.count + 1) > 2 * (t.array.length : Int))
    (hsi : t.sizeIndex + 1 < t.sizes.length) :
    ∃ t2, setItem t key data = .ok t2 ∧ t2.count = t.count + 1 ∧
      t2.sizeIndex = t.sizeIndex + 1 ∧
      t2.array.length = t.sizes.getD (t.sizeIndex + 1) 0 ∧ t2.sizes = t.sizes ∧
      Wf t2 ∧ noTomb t2 := by
  obtain ⟨pos, hppos⟩ := probe_insert_succeeds key hprime hempty
  have hptrue : hashyProbe t key true = .found pos := by
    rw [hashyProbe_def]
    exact hppos
  have hgood := probe_found_slot_insert hppos
  have hse : t.array.getD pos Slot.empty = Slot.empty := by
    rcases hs : t.array.getD pos Slot.empty with _ | _ | ⟨k0, w0⟩
    · rfl
    · rw [hs] at hgood
      exact hgood.elim
    · rw [hs] at hgood
      have hk0 : k0 = key := hgood
      exact absurd ⟨pos, w0, hk0 ▸ hs⟩ hfresh
  obtain ⟨hinv1, hget1, hpres1, htrans1, hnt1, hcount⟩ :=
    @write_spec V t key data pos hwf.retr hptrue
  have hocc1 : occCount (t.array.set pos (Slot.occupied key data)) =
      occCount t.array + 1 := by
    rcases hcount with ⟨_, h, _⟩ | ⟨w0, hw0, _⟩
    · exact h
    · rw [hse] at hw0
      exact absurd hw0 (by simp)
  have hocclt : occCount t.array < t.array.length := occCount_lt_of_empty hempty
  have hcnteq := hwf.countEq
  have hload := hwf.loadOK
  have hthrNew : 3 * ((0 : Int) + (occCount (t.array.set pos
      (Slot.occupied key data)) : Int)) ≤
      2 * ((t.sizes.getD (t.sizeIndex + 1) 0 : Nat) : Int) := by
    rw [hocc1]
    rcases prime_gap_bound hprime hprime2 hgrow with hgap | h2
    · push_cast
      omega
    · rw [h2] at hload hgrow
      have hq3 : 3 ≤ t.sizes.getD (t.sizeIndex + 1) 0 := hgrow
      push_cast
      omega
  have hroomNew : occCount (List.replicate (t.sizes.getD (t.sizeIndex + 1) 0)
      (Slot.empty : Slot V)) + occCount (t.array.set pos (Slot.occupied key data)) ≤
      (List.replicate (t.sizes.getD (t.sizeIndex + 1) 0) (Slot.empty : Slot V)).length := by
    rw [occCount_replicate_empty, hocc1, List.length_replicate]
    omega
  obtain ⟨t2, hrun, hcnt, hsi2, hlen2, hsz2, hwf2, hnt2⟩ :=
    reinsert_small t.sizes.length (by omega)
      (t.array.set pos (Slot.occupied key data))
      { sizes := t.sizes, sizeIndex := t.sizeIndex + 1,
        array := List.replicate (t.sizes.getD (t.sizeIndex + 1) 0) Slot.empty,
        count := 0 }
      (wf_freshTable t.sizes (t.sizeIndex + 1) hsi)
      (by simpa using hprime2)
      (by
        intro i
        simp only
        rw [getD_replicate_self]
        simp)
      (keys_nodup_of_uniqueKeys (uniqueKeys_of_arrInv hinv1))
      (fun k2 _ => hasKey_freshTable t.sizes (t.sizeIndex + 1) k2)
      (by simpa using hroomNew)
      (by simpa using hthrNew)
  refine ⟨t2, ?_, ?_, ?_, ?_, ?_, hwf2, hnt2⟩
  · rw [setItem, setItemF]
    simp only [hptrue, hse, Slot.isNone, if_true, StepTable.tableSize,
      List.length_set]
    rw [if_pos hbr, rehashWith]
    simp only
    rw [if_neg (by omega : ¬ t.sizeIndex + 1 ≥ t.sizes.length)]
    exact hrun
  · have hc : t2.count = (0 : Int) + (occCount (t.array.set pos
        (Slot.occupied key data)) : Int) := hcnt
    rw [hc, hocc1]
    push_cast
    omega
  · exact hsi2
  · have hl : t2.array.length = (List.replicate (t.sizes.getD (t.sizeIndex + 1) 0)
        (Slot.empty : Slot V)).length := hlen2
    simpa using hl
  · exact hsz2

theorem setItem_fresh_exhaust_err {t : StepTable V} {key : String} (data : V)
    (hprime : Nat.Prime t.array.length)
    (hfresh : ¬ hasKey t key)
    (hempty : ∃ i, i < t.array.length ∧ t.array.getD i Slot.empty = Slot.empty)
    (hbr : 3 * (t.count + 1) > 2 * (t.array.length : Int))
    (hexh : t.sizes.length ≤ t.sizeIndex + 1) :
    ∃ pos, setItem t key data = .err .fullError
      { sizes := t.sizes, sizeIndex := t.sizeIndex + 1,
        array := t.array.set pos (Slot.occupied key data),
        count := t.count + 1 } := by
  obtain ⟨pos, hppos⟩ := probe_insert_succeeds key hprime hempty
  have hptrue : hashyProbe t key true = .found pos := by
    rw [hashyProbe_def]
    exact hppos
  have hgood := probe_found_slot_insert hppos
  have hse : t.array.getD pos Slot.empty = Slot.empty := by
    rcases hs : t.array.getD pos Slot.empty with _ | _ | ⟨k0, w0⟩
    · rfl
    · rw [hs] at hgood
      exact hgood.elim
    · rw [hs] at hgood
      have hk0 : k0 = key := hgood
      exact absurd ⟨pos, w0, hk0 ▸ hs⟩ hfresh
  refine ⟨pos, ?_⟩
  rw [setItem, setItemF]
  simp only [hptrue, hse, Slot.isNone, if_true, StepTable.tableSize,
    List.length_set]
  rw [if_pos hbr, rehashWith]
  simp only
  rw [if_pos (by omega : t.sizeIndex + 1 ≥ t.sizes.length)]

theorem ladderOK_prime {sizes : List Nat} (h : ladderOK sizes) {i : Nat}
    (hi : i < sizes.length) : Nat.Prime (sizes.getD i 0) := by
  refine h.2.1 _ ?_
  rw [List.getD_eq_getElem _ _ (by simpa using hi)]
  exact List.getElem_mem _

/-! ### Perfection-table lemmas -/

theorem hashPerf_lt {ts : Nat} {key : String} {pos : Nat}
    (h : hashPerf ts key = .ok pos) : pos < ts := by
  rw [hashPerf] at h
  rcases hd : key.data with _ | ⟨c, cs⟩ <;> rw [hd] at h <;> simp only at h
  · exact absurd h (by simp)
  · by_cases hts : ts = 0
    · rw [if_pos hts] at h
      exact absurd h (by simp)
    · rw [if_neg hts] at h
      simp only [Except.ok.injEq] at h
      rw [← h]
      exact Nat.mod_lt _ (by omega)

theorem setItemPerf_get {validKeys : List String} {t t2 : PerfTable V}
    {key : String} {v : V}
    (hset : setItemPerf validKeys t key v = .ok t2) :
    getItemPerf validKeys t2 key = .ok v := by
  rw [setItemPerf] at hset
  by_cases hval : isValidKey validKeys key
  · rw [if_pos hval] at hset
    rcases hh : hashPerf t.array.length key with e | pos <;> simp only [hh] at hset
    · exact absurd hset (by simp)
    · cases hset
      have hlt : pos < t.array.length := hashPerf_lt hh
      rw [getItemPerf, if_pos hval]
      simp only
      rw [List.length_set, hh]
      simp only [getD_set_self _ _ _ _ hlt]
  · rw [if_neg hval] at hset
    exact absurd hset (by simp)

theorem noTomb_initTable (sizes : List Nat) :
    noTomb (initTable sizes : StepTable V) := by
  intro i
  rw [initTable]
  simp only
  rw [getD_replicate_self]
  simp

/-! ### Growth-ladder facts and concrete reachability chains -/

theorem ladder5 : ladderOK [5] := by
  refine ⟨by simp, by decide, ?_⟩
  intro i hi
  simp only [List.length_cons, List.length_nil] at hi
  omega

theorem ladder513 : ladderOK [5, 13] := by
  refine ⟨by simp, by decide, ?_⟩
  intro i hi
  simp only [List.length_cons, List.length_nil] at hi
  have h0 : i = 0 := by omega
  subst h0
  decide

theorem reach_c1t1 : Reachable [5, 13] c1t1 :=
  Reachable.set "a" 1 (Reachable.init (by simp)) (by decide)

theorem reach_c1t2 : Reachable [5, 13] c1t2 :=
  Reachable.set "b" 2 reach_c1t1 (by decide)

theorem reach_c1t3 : Reachable [5, 13] c1t3 :=
  Reachable.set "c" 3 reach_c1t2 (by decide)

theorem reach_tombTable : Reachable [5, 13] tombTable :=
  Reachable.del "a" reach_c1t2 (by decide)

theorem reach_c3d1 : Reachable [5, 13] c3d1 :=
  Reachable.del "a" reach_c1t3 (by decide)

theorem reach_c3d2 : Reachable [5, 13] c3d2 :=
  Reachable.del "b" reach_c3d1 (by decide)

theorem reach_c3d3 : Reachable [5, 13] c3d3 :=
  Reachable.del "c" reach_c3d2 (by decide)

theorem reach_c3t4 : Reachable [5, 13] c3t4 :=
  Reachable.set "d" 4 reach_c3d3 (by decide)

theorem reach_satTable : Reachable [5, 13] satTable :=
  Reachable.set "e" 5 reach_c3t4 (by decide)

theorem reach_c4t1 : Reachable [5] c4t1 :=
  Reachable.set "a" 1 (Reachable.init (by simp)) (by decide)

theorem reach_c4t2 : Reachable [5] c4t2 :=
  Reachable.set "b" 2 reach_c4t1 (by decide)

theorem reach_wTable : Reachable [5] wTable :=
  Reachable.set "c" 3 reach_c4t2 (by decide)

/-! ### The claims -/

/-- Claim C1: on the growth ladder `[5, 13]`, inserting three distinct keys
triggers no rehash and the capacity stays 5; the fourth distinct insert
(count 4 > (2/3)*5) triggers exactly one rehash to capacity 13 (the size
index moves from 0 to 1), after which the length is 4, the capacity is 13
and all four keys read back with the values last set for them. -/
theorem claim_C1 :
    setItem (initTable [5, 13] : StepTable Int) "a" 1 = .ok c1t1 ∧
    c1t1.tableSize = 5 ∧ c1t1.sizeIndex = 0 ∧
    setItem c1t1 "b" 2 = .ok c1t2 ∧
    c1t2.tableSize = 5 ∧ c1t2.sizeIndex = 0 ∧
    setItem c1t2 "c" 3 = .ok c1t3 ∧
    c1t3.tableSize = 5 ∧ c1t3.sizeIndex = 0 ∧ c1t3.count = 3 ∧
    setItem c1t3 "d" 4 = .ok c1t4 ∧
    c1t4.sizeIndex = 1 ∧ c1t4.tableSize = 13 ∧ c1t4.count = 4 ∧
    getItem c1t4 "a" = .ok 1 ∧ getItem c1t4 "b" = .ok 2 ∧
    getItem c1t4 "c" = .ok 3 ∧ getItem c1t4 "d" = .ok 4 := by
  decide

/-- Claim C2: round-trip — for the fixed table, any declared key universe
and any key and value, a successful `set(k, v)` is followed by
`get(k) = v`; for the dynamic table the same holds for every string key in
every reachable state. -/
theorem claim_C2 {V : Type} :
    (∀ (validKeys : List String) (t t2 : PerfTable V) (k : String) (v : V),
      setItemPerf validKeys t k v = .ok t2 →
      getItemPerf validKeys t2 k = .ok v) ∧
    (∀ (sizes : List Nat) (t t2 : StepTable V) (k : String) (v : V),
      Reachable sizes t → setItem t k v = .ok t2 → getItem t2 k = .ok v) := by
  constructor
  · intro validKeys t t2 k v hset
    exact setItemPerf_get hset
  · intro sizes t t2 k v hr hset
    exact (setItem_ok_spec (reachable_wf hr).1 hset).2.2.2.1

/-- Witness for `claim_C2`: `set("goals", 7)` then `get "goals"` on the
fixed table, and `set("a", 1)` then `get "a"` on a fresh dynamic table. -/
theorem claim_C2_witness :
    setItemPerf ["goals"] (initPerf : PerfTable Int) "goals" 7 = .ok perfGoals ∧
    getItemPerf ["goals"] perfGoals "goals" = .ok 7 ∧
    setItem (initTable [5, 13] : StepTable Int) "a" 1 = .ok c1t1 ∧
    getItem c1t1 "a" = .ok 1 :=
  ⟨by decide,
   (claim_C2 (V := Int)).1 ["goals"] initPerf perfGoals "goals" 7 (by decide),
   by decide,
   (claim_C2 (V := Int)).2 [5, 13] (initTable [5, 13]) c1t1 "a" 1
     (Reachable.init (by simp)) (by decide)⟩

/-- Claim C3 (amended): over a non-empty growth ladder of strictly
increasing primes, `__setitem__` on a reachable table that holds no
tombstone and whose size index is not at the last ladder entry always
succeeds — in particular it never surfaces `FullError`.  The frozen claim,
which allows tombstones, is refuted by `claim_C3_counterexample`. -/
theorem claim_C3 {V : Type} {sizes : List Nat} {t : StepTable V}
    (hlad : ladderOK sizes) (hr : Reachable sizes t) (hnt : noTomb t)
    (hni : t.sizeIndex + 1 < sizes.length) (k : String) (v : V) :
    ∃ t2, setItem t k v = .ok t2 := by
  obtain ⟨hwf, hsz⟩ := reachable_wf hr
  have hplen : Nat.Prime t.array.length := by
    rw [hwf.lenEq, hsz]
    exact ladderOK_prime hlad (hsz ▸ hwf.idxLt)
  by_cases hk : hasKey t k
  · obtain ⟨t2, hok, -, -, -, -⟩ := setItem_present_ok v hwf hk
    exact ⟨t2, hok⟩
  · have hocclt : occCount t.array < t.array.length := by
      have h1 := hwf.loadOK
      have h2 := hwf.countEq
      have h3 := hplen.two_le
      omega
    have hempty := exists_empty_slot (fun i => hnt i) hocclt
    by_cases hbr : 3 * (t.count + 1) > 2 * (t.array.length : Int)
    · have hsi : t.sizeIndex + 1 < t.sizes.length := by
        rw [hsz]
        exact hni
      have hprime2 : Nat.Prime (t.sizes.getD (t.sizeIndex + 1) 0) := by
        rw [hsz]
        exact ladderOK_prime hlad hni
      have hgrow : t.array.length < t.sizes.getD (t.sizeIndex + 1) 0 := by
        rw [hwf.lenEq, hsz]
        exact hlad.2.2 t.sizeIndex hni
      obtain ⟨t2, hok, -, -, -, -, -, -⟩ :=
        setItem_fresh_breach_ok v hwf hplen hprime2 hgrow hk hempty hbr hsi
      exact ⟨t2, hok⟩
    · obtain ⟨pos, hok⟩ := setItem_fresh_noBreach_ok v hplen hk hempty (not_lt.mp hbr)
      exact ⟨_, hok⟩

/-- Counterexample to the frozen claim C3: `satTable` is reachable on the
ladder `[5, 13]` and its size index 0 is not the last ladder entry, yet
inserting the fresh key `"f"` surfaces `FullError`: its five slots hold
three tombstones and two other keys, so the insert probe finds neither a
`None` slot nor a match and raises before any rehash can intervene. -/
theorem claim_C3_counterexample :
    Reachable [5, 13] satTable ∧
    satTable.sizeIndex + 1 < ([5, 13] : List Nat).length ∧
    setItem satTable "f" 6 = .err .fullError satTable :=
  ⟨reach_satTable, by decide, by decide⟩

/-- Witness for `claim_C3`: a fresh table on the ladder `[5, 13]`. -/
theorem claim_C3_witness :
    ladderOK [5, 13] ∧
    noTomb (initTable [5, 13] : StepTable Int) ∧
    ∃ t2, setItem (initTable [5, 13] : StepTable Int) "a" (1 : Int) = .ok t2 :=
  ⟨ladder513, noTomb_initTable _,
   claim_C3 ladder513 (Reachable.init (by simp)) (noTomb_initTable _)
     (by decide) "a" 1⟩

/-- Claim C4 (amended): over a non-empty growth ladder of strictly
increasing primes, a `set` call on a reachable table either succeeds or
fails with `FullError`; in the failure case the observable state is either
exactly the pre-call state (probe-level `FullError` on a
tombstone-saturated table) or — when the failure comes from ladder
exhaustion inside `_rehash` — the pre-call state with the new key already
written into one slot, the count incremented and the size index advanced
past the last ladder index.  The frozen claim's unchanged-state guarantee
is refuted by `claim_C4_counterexample`. -/
theorem claim_C4 {V : Type} {sizes : List Nat} {t t2 : StepTable V}
    {k : String} {v : V} {e : TErr}
    (hlad : ladderOK sizes) (hr : Reachable sizes t)
    (herr : setItem t k v = .err e t2) :
    e = .fullError ∧
    (t2 = t ∨
      (t2.sizeIndex = t.sizeIndex + 1 ∧ t2.sizes.length ≤ t2.sizeIndex ∧
       t2.count = t.count + 1 ∧
       ∃ pos, t2.array = t.array.set pos (Slot.occupied k v))) := by
  obtain ⟨hwf, hsz⟩ := reachable_wf hr
  have hplen : Nat.Prime t.array.length := by
    rw [hwf.lenEq, hsz]
    exact ladderOK_prime hlad (hsz ▸ hwf.idxLt)
  by_cases hk : hasKey t k
  · obtain ⟨t3, hok, -, -, -, -⟩ := setItem_present_ok v hwf hk
    rw [hok] at herr
    exact absurd herr (by simp)
  by_cases hemp : ∃ i, i < t.array.length ∧ t.array.getD i Slot.empty = Slot.empty
  · by_cases hbr : 3 * (t.count + 1) > 2 * (t.array.length : Int)
    · by_cases hsi : t.sizeIndex + 1 ≥ t.sizes.length
      · obtain ⟨pos, heq⟩ := setItem_fresh_exhaust_err v hplen hk hemp hbr hsi
        rw [heq] at herr
        simp only [SetResult.err.injEq] at herr
        obtain ⟨he, ht⟩ := herr
        refine ⟨he.symm, Or.inr ?_⟩
        rw [← ht]
        refine ⟨rfl, ?_, rfl, pos, rfl⟩
        simpa using hsi
      · push_neg at hsi
        have hprime2 : Nat.Prime (t.sizes.getD (t.sizeIndex + 1) 0) := by
          rw [hsz]
          refine ladderOK_prime hlad ?_
          rw [← hsz]
          exact hsi
        have hgrow : t.array.length < t.sizes.getD (t.sizeIndex + 1) 0 := by
          rw [hwf.lenEq, hsz]
          refine hlad.2.2 t.sizeIndex ?_
          rw [← hsz]
          exact hsi
        obtain ⟨t3, hok, -, -, -, -, -, -⟩ :=
          setItem_fresh_breach_ok v hwf hplen hprime2 hgrow hk hemp hbr hsi
        rw [hok] at herr
        exact absurd herr (by simp)
    · obtain ⟨pos, hok⟩ := setItem_fresh_noBreach_ok v hplen hk hemp (not_lt.mp hbr)
      rw [hok] at herr
      exact absurd herr (by simp)
  · have hnoempty : ∀ i, i < t.array.length →
        t.array.getD i Slot.empty ≠ Slot.empty :=
      fun i hi he => hemp ⟨i, hi, he⟩
    have hfe := setItem_full_err v (by have := hplen.two_le; omega) hnoempty hk
    rw [hfe] at herr
    simp only [SetResult.err.injEq] at herr
    exact ⟨herr.1.symm, Or.inl herr.2.symm⟩

/-- Counterexample to the frozen claim C4: on the one-entry ladder `[5]`,
the failing fourth insert raises `FullError` but leaves the table mutated —
the count moved from 3 to 4, the size index from 0 to 1, and the key whose
insertion "failed" reads back with its value. -/
theorem claim_C4_counterexample :
    Reachable [5] wTable ∧
    setItem wTable "d" 4 = .err .fullError wErr ∧
    wErr.count ≠ wTable.count ∧ wErr.sizeIndex ≠ wTable.sizeIndex ∧
    getItem wErr "d" = .ok 4 :=
  ⟨reach_wTable, by decide, by decide, by decide, by decide⟩

/-- Witness for `claim_C4`: the failing fourth insert on the ladder `[5]`. -/
theorem claim_C4_witness :
    ladderOK [5] ∧
    setItem wTable "d" 4 = .err .fullError wErr ∧
    (TErr.fullError = TErr.fullError ∧
      (wErr = wTable ∨
        (wErr.sizeIndex = wTable.sizeIndex + 1 ∧
         wErr.sizes.length ≤ wErr.sizeIndex ∧
         wErr.count = wTable.count + 1 ∧
         ∃ pos, wErr.array = wTable.array.set pos (Slot.occupied "d" (4 : Int))))) :=
  ⟨ladder5, by decide, claim_C4 ladder5 reach_wTable (by decide)⟩

/-- Claim C5 (the code diverges from it): in the reachable dynamic-table
state `tombTable` (one tombstone, one occupied slot) the spec's reading of
`keys()`/`values()` is `["b"]`/`[2]`, but the code subscripts the tombstone
sentinel and raises `TypeError`; on the fixed table, after `set("goals", 7)`
the only occupied slot is slot 3 while the count is 1, and `keys()`/
`values()` — which iterate `range(len(self))`, the count rather than the
capacity — return no entries instead of `["goals"]`/`[7]`. -/
theorem claim_C5 :
    Reachable [5, 13] tombTable ∧
    occupiedKeys tombTable.array = ["b"] ∧
    keysStep tombTable.array = .error .typeError ∧
    valuesStep tombTable.array = .error .typeError ∧
    setItemPerf ["goals"] (initPerf : PerfTable Int) "goals" 7 = .ok perfGoals ∧
    occupiedKeysPerf perfGoals.array = ["goals"] ∧
    keysPerf perfGoals = .ok [] ∧
    valuesPerf perfGoals = .ok [] :=
  ⟨reach_tombTable, by decide, by decide, by decide, by decide, by decide,
   by decide, by decide⟩

/-- Claim C6: `__delitem__` of the fixed table performs no validation and
no presence check — for every table and every non-empty key (over a
non-empty backing array) it hashes the key, unconditionally clears the
hashed slot to `None` and decrements the count; in particular deleting the
absent key `"goals"` from `pdel1` (count already -1) drives the count to
-2. -/
theorem claim_C6 {V : Type} (t : PerfTable V) (key : String)
    (hk : key ≠ "") (hts : t.array.length ≠ 0) :
    (∃ pos, hashPerf t.array.length key = .ok pos ∧
      delItemPerf t key = .ok { array := t.array.set pos none,
                                count := t.count - 1 }) ∧
    ∃ t2 : PerfTable Int, delItemPerf pdel1 "goals" = .ok t2 ∧ t2.count < 0 := by
  constructor
  · obtain ⟨c, cs, hd⟩ : ∃ c cs, key.data = c :: cs := by
      cases hdd : key.data with
      | nil => exact absurd (show key = "" from congrArg String.mk hdd) hk
      | cons c cs => exact ⟨c, cs, rfl⟩
    have hh : hashPerf t.array.length key =
        .ok ((c.toNat * 3 + ((c :: cs).getLastD c).toNat * 5 +
          ((c :: cs).getD ((c :: cs).length / 2) c).toNat * 7) % t.array.length) := by
      rw [hashPerf, hd]
      simp only
      rw [if_neg hts]
    refine ⟨_, hh, ?_⟩
    rw [delItemPerf, hh]
  · exact ⟨perfState initPerf (delItemPerf pdel1 "goals"), by decide, by decide⟩

/-- Witness for `claim_C6`: deleting `"goals"` from the fresh fixed
table. -/
theorem claim_C6_witness :
    ("goals" : String) ≠ "" ∧
    (initPerf : PerfTable Int).array.length ≠ 0 ∧
    ((∃ pos, hashPerf (initPerf : PerfTable Int).array.length "goals" = .ok pos ∧
        delItemPerf (initPerf : PerfTable Int) "goals" =
          .ok { array := (initPerf : PerfTable Int).array.set pos none,
                count := (initPerf : PerfTable Int).count - 1 }) ∧
      ∃ t2 : PerfTable Int, delItemPerf pdel1 "goals" = .ok t2 ∧ t2.count < 0) :=
  ⟨by decide, by decide, claim_C6 initPerf "goals" (by decide) (by decide)⟩

/-- Claim C7: over a prime capacity the probe sequence of `_hashy_probe` —
start `hash(key)`, step `hash2(key)` — visits every slot exactly once in
its first `capacity` steps (injective and surjective on `[0, capacity)`),
and the probe loop, run with fuel equal to the capacity, never exhausts its
fuel: it terminates with a position, `KeyError` or `FullError`. -/
theorem claim_C7 {V : Type} (t : StepTable V) (key : String) (b : Bool)
    (hp : Nat.Prime t.tableSize) :
    (∀ j1 j2, j1 < t.tableSize → j2 < t.tableSize →
      (hash1 t.tableSize key + j1 * hash2 t.tableSize key) % t.tableSize =
        (hash1 t.tableSize key + j2 * hash2 t.tableSize key) % t.tableSize →
      j1 = j2) ∧
    (∀ e, e < t.tableSize → ∃ j, j < t.tableSize ∧
      (hash1 t.tableSize key + j * hash2 t.tableSize key) % t.tableSize = e) ∧
    hashyProbe t key b ≠ .outOfFuel := by
  have h2 : 2 ≤ t.tableSize := hp.two_le
  exact ⟨probe_positions_inj hp (hash2_pos _ _) (hash2_le _ _ h2) _,
    probe_positions_surj hp (hash2_pos _ _) (hash2_le _ _ h2) _,
    hashyProbe_ne_outOfFuel t key b (by omega)⟩

/-- Witness for `claim_C7`: the fresh table of capacity 5. -/
theorem claim_C7_witness :
    Nat.Prime (initTable [5, 13] : StepTable Int).tableSize ∧
    ((∀ j1 j2, j1 < (initTable [5, 13] : StepTable Int).tableSize →
      j2 < (initTable [5, 13] : StepTable Int).tableSize →
      (hash1 (initTable [5, 13] : StepTable Int).tableSize "a" +
          j1 * hash2 (initTable [5, 13] : StepTable Int).tableSize "a") %
          (initTable [5, 13] : StepTable Int).tableSize =
        (hash1 (initTable [5, 13] : StepTable Int).tableSize "a" +
          j2 * hash2 (initTable [5, 13] : StepTable Int).tableSize "a") %
          (initTable [5, 13] : StepTable Int).tableSize →
      j1 = j2) ∧
    (∀ e, e < (initTable [5, 13] : StepTable Int).tableSize →
      ∃ j, j < (initTable [5, 13] : StepTable Int).tableSize ∧
        (hash1 (initTable [5, 13] : StepTable Int).tableSize "a" +
          j * hash2 (initTable [5, 13] : StepTable Int).tableSize "a") %
          (initTable [5, 13] : StepTable Int).tableSize = e) ∧
    hashyProbe (initTable [5, 13] : StepTable Int) "a" true ≠ .outOfFuel) :=
  ⟨by decide, claim_C7 (initTable [5, 13]) "a" true (by decide)⟩

/-- Claim C8: whenever the capacity is at least 2, `hash2` returns a step
in `[1, capacity - 1]` — never 0. -/
theorem claim_C8 {V : Type} (t : StepTable V) (key : String)
    (h2 : 2 ≤ t.tableSize) :
    1 ≤ hash2 t.tableSize key ∧ hash2 t.tableSize key ≤ t.tableSize - 1 :=
  ⟨hash2_pos _ _, hash2_le _ _ h2⟩

/-- Witness for `claim_C8`: the fresh table of capacity 5. -/
theorem claim_C8_witness :
    2 ≤ (initTable [5, 13] : StepTable Int).tableSize ∧
    1 ≤ hash2 (initTable [5, 13] : StepTable Int).tableSize "a" ∧
    hash2 (initTable [5, 13] : StepTable Int).tableSize "a" ≤
      (initTable [5, 13] : StepTable Int).tableSize - 1 :=
  ⟨by decide, claim_C8 (initTable [5, 13]) "a" (by decide)⟩

/-- Claim C9: in every reachable dynamic-table state the count never
exceeds the capacity, and a successful `set` changes the size index (a
rehash) exactly when it inserted a fresh key whose post-insert count
breaches `2/3` of the capacity: an overwrite never rehashes (the load
factor already holds), and a fresh insert below the threshold keeps the
size index and capacity unchanged. -/
theorem claim_C9 {V : Type} {sizes : List Nat} {t : StepTable V}
    (hr : Reachable sizes t) :
    t.count ≤ (t.tableSize : Int) ∧
    ∀ k v t2, setItem t k v = .ok t2 →
      (hasKey t k →
        3 * t.count ≤ 2 * (t.tableSize : Int) ∧
        t2.sizeIndex = t.sizeIndex ∧ t2.count = t.count ∧
        t2.tableSize = t.tableSize) ∧
      (¬ hasKey t k →
        (3 * (t.count + 1) ≤ 2 * (t.tableSize : Int) →
          t2.sizeIndex = t.sizeIndex ∧ t2.count = t.count + 1 ∧
          t2.tableSize = t.tableSize) ∧
        (3 * (t.count + 1) > 2 * (t.tableSize : Int) →
          t.sizeIndex < t2.sizeIndex)) := by
  obtain ⟨hwf, -⟩ := reachable_wf hr
  constructor
  · have h1 := hwf.loadOK
    have h2 : (0 : Int) ≤ (t.array.length : Int) := Int.ofNat_nonneg _
    show t.count ≤ (t.array.length : Int)
    omega
  · intro k v t2 hset
    obtain ⟨-, -, -, -, -, -, -, hpres, hfresh⟩ := setItem_ok_spec hwf hset
    constructor
    · intro hk
      obtain ⟨hsi, hcnt, hlen⟩ := hpres hk
      exact ⟨hwf.loadOK, hsi, hcnt, hlen⟩
    · intro hk
      obtain ⟨hno, hyes⟩ := hfresh hk
      exact ⟨fun h => hno h, fun h => hyes h⟩

/-- Witness for `claim_C9`: the fresh table on the ladder `[5, 13]` and its
first insert. -/
theorem claim_C9_witness :
    (initTable [5, 13] : StepTable Int).count ≤
      ((initTable [5, 13] : StepTable Int).tableSize : Int) ∧
    c1t1.sizeIndex = (initTable [5, 13] : StepTable Int).sizeIndex ∧
    c1t1.count = (initTable [5, 13] : StepTable Int).count + 1 ∧
    c1t1.tableSize = (initTable [5, 13] : StepTable Int).tableSize :=
  ⟨(claim_C9 (Reachable.init (by simp))).1,
   (((claim_C9 (Reachable.init (by simp))).2 "a" 1 c1t1 (by decide)).2
     (hasKey_initTable [5, 13] "a")).1 (by decide)⟩

/-- Claim C10: the fixed table's `hash` indexes `key[0]`, so it is partial:
on the empty key it fails with Python's out-of-range string-index error,
and since `__delitem__` performs no key validation and no presence check
before hashing, `delete("")` surfaces that `IndexError` — not `InvalidKey`
and not `KeyNotFound`. -/
theorem claim_C10 {V : Type} (t : PerfTable V) :
    hashPerf t.array.length "" = .error .indexError ∧
    delItemPerf t "" = .error .indexError ∧
    delItemPerf t "" ≠ .error .invalidKey ∧
    delItemPerf t "" ≠ .error .keyError := by
  have hh : hashPerf t.array.length "" = .error .indexError := rfl
  have hd : delItemPerf t "" = .error .indexError := by
    rw [delItemPerf, hh]
  refine ⟨hh, hd, ?_, ?_⟩
  · rw [hd]
    simp
  · rw [hd]
    simp

end FFL
